import Mathlib

/-!
Verification of the run-log streaming tracer and the remote marshalling
protocol of this repository.

The development shallowly embeds the TypeScript sources:

* `langchain-core/src/tracers/log_stream.ts` — the JSON-Patch-style run log
  (`RunLogPatch`, `RunLog`), the run-inclusion filter (`_includeRun`), the
  input/output standardization helpers (`_getStandardizedInputs`,
  `_getStandardizedOutputs`) and the `LogStreamCallbackHandler` lifecycle
  handlers (`onRunCreate`, `onRunUpdate`, `onLLMNewToken`,
  `tapOutputIterable`), modelled as a state machine over an event list.
* `langchain-core/src/runnables/remote.ts` — `serialize` / `revive` and the
  `batch` / `_batch` entry points of `RemoteRunnable`.

JSON documents are modelled by the inductive type `JValue` (with an explicit
`undef` constructor for the JavaScript `undefined` value), and the JSON-Patch
application used by `RunLogPatch.concat` / `RunLog.concat` is modelled from
the specification (the vendored `fast-json-patch` library is not part of the
sources under verification): operations `add` / `replace` / `remove` address
a slash-delimited path whose segments are object keys, array indices, or
`-` (append), a `replace` must target an existing path, and application of
an operation list fails atomically if any single operation is invalid.
-/

/-! ## JSON values and association-list objects -/

/-- A JavaScript/JSON value. Objects are insertion-ordered association
lists, as JavaScript objects are. The `undef` constructor models the
JavaScript `undefined` value, which TypeScript object fields can hold. -/
inductive JValue where
  | undef
  | null
  | bool (b : Bool)
  | num (n : Int)
  | str (s : String)
  | arr (elems : List JValue)
  | obj (fields : List (String × JValue))

/-- Lookup of a key in a JavaScript object (association list). -/
def assocGet {α : Type} : List (String × α) → String → Option α
  | [], _ => none
  | (k', v) :: fs, k => if k' = k then some v else assocGet fs k

/-- JavaScript property assignment: update the key in place if present,
otherwise append the new key at the end (insertion order). -/
def assocSet {α : Type} : List (String × α) → String → α → List (String × α)
  | [], k, v => [(k, v)]
  | (k', v') :: fs, k, v =>
    if k' = k then (k', v) :: fs else (k', v') :: assocSet fs k v

/-- JavaScript `delete obj[k]`. -/
def assocRemove {α : Type} : List (String × α) → String → List (String × α)
  | [], _ => []
  | (k', v) :: fs, k => if k' = k then fs else (k', v) :: assocRemove fs k

theorem assocGet_assocSet_self {α : Type} (fs : List (String × α)) (k : String) (v : α) :
    assocGet (assocSet fs k v) k = some v := by
  induction fs with
  | nil => simp [assocGet, assocSet]
  | cons hd tl ih =>
    obtain ⟨k', v'⟩ := hd
    by_cases h : k' = k
    · simp [assocGet, assocSet, h]
    · simp [assocGet, assocSet, h, ih]

theorem assocGet_assocSet_ne {α : Type} (fs : List (String × α)) (k k' : String) (v : α)
    (h : k ≠ k') : assocGet (assocSet fs k v) k' = assocGet fs k' := by
  induction fs with
  | nil => simp [assocGet, assocSet, h]
  | cons hd tl ih =>
    obtain ⟨k0, v0⟩ := hd
    by_cases h0 : k0 = k
    · subst h0
      simp [assocGet, assocSet, h]
    · simp only [assocSet, if_neg h0, assocGet]
      by_cases h1 : k0 = k'
      · simp [h1]
      · simp [h1, ih]

/-! ## The JSON-Patch operation model

Modelled from the spec: the vendored JSON-Patch implementation is outside
the verified sources; the spec describes `add` (append or set), `replace`
(must target an existing path), `remove`, with atomic failure of a whole
operation list when any single operation is invalid. A path is a list of
segments (object keys, array indices, or `-` for array append). -/

/-- A single JSON-Patch operation. -/
inductive PatchOp where
  | add (path : List String) (value : JValue)
  | replace (path : List String) (value : JValue)
  | remove (path : List String)

/-- Apply an `add` operation at a path. At an object key the field is set
(created or overwritten); in an array, `-` appends and a numeric index
inserts (index ≤ length). Traversal into a missing child fails. -/
def addAt : JValue → List String → JValue → Option JValue
  | _, [], v => some v
  | JValue.obj fs, k :: rest, v =>
    match rest with
    | [] => some (JValue.obj (assocSet fs k v))
    | _ :: _ =>
      match assocGet fs k with
      | some child => (addAt child rest v).map fun c => JValue.obj (assocSet fs k c)
      | none => none
  | JValue.arr xs, k :: rest, v =>
    match rest with
    | [] =>
      if k = "-" then some (JValue.arr (xs ++ [v]))
      else
        match k.toNat? with
        | some i =>
          if i ≤ xs.length then some (JValue.arr (xs.take i ++ v :: xs.drop i)) else none
        | none => none
    | _ :: _ =>
      match k.toNat? with
      | some i =>
        match xs[i]? with
        | some child => (addAt child rest v).map fun c => JValue.arr (xs.set i c)
        | none => none
      | none => none
  | _, _, _ => none

/-- Apply a `replace` operation at a path; the target must exist. -/
def replaceAt : JValue → List String → JValue → Option JValue
  | _, [], v => some v
  | JValue.obj fs, k :: rest, v =>
    match rest with
    | [] =>
      match assocGet fs k with
      | some _ => some (JValue.obj (assocSet fs k v))
      | none => none
    | _ :: _ =>
      match assocGet fs k with
      | some child => (replaceAt child rest v).map fun c => JValue.obj (assocSet fs k c)
      | none => none
  | JValue.arr xs, k :: rest, v =>
    match rest with
    | [] =>
      match k.toNat? with
      | some i => if i < xs.length then some (JValue.arr (xs.set i v)) else none
      | none => none
    | _ :: _ =>
      match k.toNat? with
      | some i =>
        match xs[i]? with
        | some child => (replaceAt child rest v).map fun c => JValue.arr (xs.set i c)
        | none => none
      | none => none
  | _, _, _ => none

/-- Apply a `remove` operation at a path; the target must exist. -/
def removeAt : JValue → List String → Option JValue
  | _, [] => none
  | JValue.obj fs, k :: rest =>
    match rest with
    | [] =>
      match assocGet fs k with
      | some _ => some (JValue.obj (assocRemove fs k))
      | none => none
    | _ :: _ =>
      match assocGet fs k with
      | some child => (removeAt child rest).map fun c => JValue.obj (assocSet fs k c)
      | none => none
  | JValue.arr xs, k :: rest =>
    match rest with
    | [] =>
      match k.toNat? with
      | some i => if i < xs.length then some (JValue.arr (xs.eraseIdx i)) else none
      | none => none
    | _ :: _ =>
      match k.toNat? with
      | some i =>
        match xs[i]? with
        | some child => (removeAt child rest).map fun c => JValue.arr (xs.set i c)
        | none => none
      | none => none
  | _, _ => none

/-- Apply one operation to a document. -/
def applyOp (doc : JValue) : PatchOp → Option JValue
  | PatchOp.add p v => addAt doc p v
  | PatchOp.replace p v => replaceAt doc p v
  | PatchOp.remove p => removeAt doc p

/-- Apply an ordered list of operations; fails atomically on the first
invalid operation. -/
def applyOps : JValue → List PatchOp → Option JValue
  | doc, [] => some doc
  | doc, op :: ops =>
    match applyOp doc op with
    | some d => applyOps d ops
    | none => none

theorem applyOps_append (doc : JValue) (l1 l2 : List PatchOp) :
    applyOps doc (l1 ++ l2) =
      match applyOps doc l1 with
      | some d => applyOps d l2
      | none => none := by
  induction l1 generalizing doc with
  | nil => simp [applyOps]
  | cons op ops ih =>
    simp only [List.cons_append, applyOps]
    cases applyOp doc op with
    | none => rfl
    | some d => exact ih d

/-! ## RunLogPatch and RunLog (log_stream.ts lines 74–114)

The source replays patch operations with the JSON-Patch library and reads
off the final document; in the model, application returns `none` where the
library would throw, so both `concat` variants return `Option RunLog`. -/

/-- The empty document `{}` that every replay starts from. -/
def emptyDoc : JValue := JValue.obj []

/-- A list of JSON-Patch operations describing how to build the run state
from the empty document. -/
structure RunLogPatch where
  ops : List PatchOp

/-- A `RunLogPatch` paired with the state materialized from its own ops. -/
structure RunLog extends RunLogPatch where
  state : JValue

/-- `RunLogPatch.concat`: append the other ops and replay the entire
resulting list against the empty document. -/
def RunLogPatch.concat (self other : RunLogPatch) : Option RunLog :=
  let ops := self.ops ++ other.ops
  (applyOps emptyDoc ops).map fun st => { ops := ops, state := st }

/-- `RunLog.concat`: append the other ops but apply only them, against the
already-materialized state. -/
def RunLog.concat (self : RunLog) (other : RunLogPatch) : Option RunLog :=
  let ops := self.ops ++ other.ops
  (applyOps self.state other.ops).map fun st => { ops := ops, state := st }

/-- `RunLog.fromRunLogPatch`: materialize a patch by full replay from the
empty document. -/
def RunLog.fromRunLogPatch (patch : RunLogPatch) : Option RunLog :=
  (applyOps emptyDoc patch.ops).map fun st => { ops := patch.ops, state := st }

/-- C1: for every `RunLog` `L` whose state is the result of applying its own
ops to the empty document, and every `RunLogPatch` `P`, the incremental
`RunLog.concat` (which applies only `P.ops` to the materialized state)
agrees with the full replay performed by `RunLogPatch.concat` and by
`RunLog.fromRunLogPatch` on the concatenated op list. -/
theorem c1_concat_equiv_full_replay (L : RunLog) (P : RunLogPatch)
    (h : applyOps emptyDoc L.ops = some L.state) :
    L.concat P = RunLogPatch.concat L.toRunLogPatch P ∧
      L.concat P = RunLog.fromRunLogPatch { ops := L.ops ++ P.ops } := by
  have hfull : applyOps emptyDoc (L.ops ++ P.ops) = applyOps L.state P.ops := by
    rw [applyOps_append, h]
  constructor
  · simp only [RunLog.concat, RunLogPatch.concat, hfull]
  · simp only [RunLog.concat, RunLog.fromRunLogPatch, hfull]

/-- Witness for C1 at a concrete run log: `L` replays
`replace "" {"x": 1}` from `{}`, and `P` adds key `"y"`. -/
theorem c1_concat_equiv_full_replay_witness :
    applyOps emptyDoc [PatchOp.replace [] (JValue.obj [("x", JValue.num 1)])] =
        some (JValue.obj [("x", JValue.num 1)]) ∧
      ({ ops := [PatchOp.replace [] (JValue.obj [("x", JValue.num 1)])],
         state := JValue.obj [("x", JValue.num 1)] : RunLog }.concat
          { ops := [PatchOp.add ["y"] (JValue.num 2)] } =
        RunLogPatch.concat
          { ops := [PatchOp.replace [] (JValue.obj [("x", JValue.num 1)])] }
          { ops := [PatchOp.add ["y"] (JValue.num 2)] }) :=
  ⟨rfl,
    (c1_concat_equiv_full_replay
      { ops := [PatchOp.replace [] (JValue.obj [("x", JValue.num 1)])],
        state := JValue.obj [("x", JValue.num 1)] }
      { ops := [PatchOp.add ["y"] (JValue.num 2)] } rfl).1⟩

/-! ## Runs and the standardization layer (log_stream.ts lines 202–277) -/

/-- The two schema formats of `log_stream.ts`. -/
inductive SchemaFormat where
  | original
  | streaming_events
  deriving DecidableEq

/-- A run descriptor as delivered by the execution engine (`Run` of
`tracers/base.ts`): identifier, name, run type, optional tags, optional
metadata (under `extra`), timestamps, raw inputs and raw outputs. -/
structure Run where
  id : String
  name : String
  run_type : String
  tags : Option (List String) := none
  extra_metadata : Option (List (String × JValue)) := none
  start_time : Nat := 0
  end_time : Option Nat := none
  inputs : List (String × JValue) := []
  outputs : Option (List (String × JValue)) := none

/-- JavaScript property read `obj.k`: `undefined` when the key is absent. -/
def jsGet (fs : List (String × JValue)) (k : String) : JValue :=
  (assocGet fs k).getD JValue.undef

/-- JavaScript `x !== undefined`. -/
def jsDefined : JValue → Bool
  | JValue.undef => false
  | _ => true

/-- JavaScript `x === ""`. -/
def isEmptyStr : JValue → Bool
  | JValue.str s => s = ""
  | _ => false

/-- An optional JavaScript object rendered as a value (`undefined` when the
object itself is absent). -/
def objOrUndef : Option (List (String × JValue)) → JValue
  | some fs => JValue.obj fs
  | none => JValue.undef

/-- The body of `_getStandardizedInputs` for the `streaming_events` format
(the only format under which the source reaches this code): `retriever`,
`llm` and `prompt` runs pass their inputs through; otherwise a single-entry
mapping whose `input` value is the empty string yields `undefined` (the
"input not yet known" sentinel), and otherwise the value under key `input`
is returned (which is `undefined` when the key is absent). -/
def standardizedInputsSE (run : Run) : JValue :=
  if ["retriever", "llm", "prompt"].contains run.run_type then
    JValue.obj run.inputs
  else if run.inputs.length = 1 ∧ isEmptyStr (jsGet run.inputs "input") then
    JValue.undef
  else
    jsGet run.inputs "input"

/-- `_getStandardizedInputs(run, schemaFormat)`: throws under the
`original` format, otherwise standardizes as `standardizedInputsSE`. -/
def _getStandardizedInputs (run : Run) (schemaFormat : SchemaFormat) :
    Except String JValue :=
  if schemaFormat = SchemaFormat.original then
    Except.error
      ("Do not assign inputs with original schema drop the key for now. " ++
        "When inputs are added to streamLog they should be added with " ++
        "standardized schema for streaming events.")
  else
    Except.ok (standardizedInputsSE run)

/-- `_getStandardizedOutputs(run, schemaFormat)`: the `original` format and
the `retriever` / `llm` / `prompt` run types pass outputs through; otherwise
a defined single-entry mapping with a defined value under key `output` is
unwrapped to that value, and anything else passes through. -/
def _getStandardizedOutputs (run : Run) (schemaFormat : SchemaFormat) : JValue :=
  if schemaFormat = SchemaFormat.original then
    objOrUndef run.outputs
  else if ["retriever", "llm", "prompt"].contains run.run_type then
    objOrUndef run.outputs
  else
    match run.outputs with
    | some fs =>
      if fs.length = 1 ∧ jsDefined (jsGet fs "output") then jsGet fs "output"
      else JValue.obj fs
    | none => JValue.undef

/-- C2 counterexample: under the standardized format, a `chain` run whose
raw input mapping is the single-entry mapping `{"foo": 1}` (which has no
entry under key `input`) is NOT passed through: `_getStandardizedInputs`
returns `undefined` (the value of the absent `input` key), not the mapping
itself as the claim requires. -/
theorem c2_not_passed_through :
    _getStandardizedInputs
        { id := "r1", name := "n", run_type := "chain",
          inputs := [("foo", JValue.num 1)] }
        SchemaFormat.streaming_events = Except.ok JValue.undef ∧
      (Except.ok JValue.undef : Except String JValue) ≠
        Except.ok (JValue.obj [("foo", JValue.num 1)]) := by
  constructor
  · rfl
  · intro h
    simp at h

/-- C2 amended: under the standardized format, `retriever` / `llm` /
`prompt` runs pass inputs and outputs through unchanged. For every other
run type, the raw output mapping is unwrapped to the value under key
`output` exactly when it is defined and has exactly one entry, whose value
under key `output` is defined; the raw input mapping, however, is always
unwrapped to the value under key `input` (never passed through): a
single-entry mapping whose `input` value is the empty string yields the
`undefined` sentinel, and otherwise the value under key `input` is returned
(`undefined` when the key is absent). -/
theorem c2_standardization_amended (run : Run) :
    (["retriever", "llm", "prompt"].contains run.run_type = true →
      _getStandardizedInputs run SchemaFormat.streaming_events =
          Except.ok (JValue.obj run.inputs) ∧
        _getStandardizedOutputs run SchemaFormat.streaming_events =
          objOrUndef run.outputs) ∧
    (["retriever", "llm", "prompt"].contains run.run_type = false →
      (_getStandardizedInputs run SchemaFormat.streaming_events =
          Except.ok
            (if run.inputs.length = 1 ∧ isEmptyStr (jsGet run.inputs "input") then
              JValue.undef
            else jsGet run.inputs "input")) ∧
        (∀ fs : List (String × JValue), run.outputs = some fs →
          _getStandardizedOutputs run SchemaFormat.streaming_events =
            (if fs.length = 1 ∧ jsDefined (jsGet fs "output") then jsGet fs "output"
             else JValue.obj fs))) := by
  constructor
  · intro h
    have hm : run.run_type = "retriever" ∨ run.run_type = "llm" ∨ run.run_type = "prompt" := by
      simpa using h
    constructor
    · rcases hm with h0 | h0 | h0 <;>
        simp [_getStandardizedInputs, standardizedInputsSE, h0]
    · rcases hm with h0 | h0 | h0 <;>
        simp [_getStandardizedOutputs, h0]
  · intro h
    have hm : ¬run.run_type = "retriever" ∧ ¬run.run_type = "llm" ∧
        ¬run.run_type = "prompt" := by simpa using h
    constructor
    · simp [_getStandardizedInputs, standardizedInputsSE, hm.1, hm.2.1, hm.2.2]
    · intro fs hfs
      simp [_getStandardizedOutputs, hm.1, hm.2.1, hm.2.2, hfs]

/-- Witness for C2 amended: an `llm` run passes through, and a `chain` run
with outputs `{"output": 7}` unwraps its output. -/
theorem c2_standardization_amended_witness :
    (_getStandardizedInputs
        { id := "a", name := "n", run_type := "llm",
          inputs := [("p", JValue.str "q")] }
        SchemaFormat.streaming_events =
      Except.ok (JValue.obj [("p", JValue.str "q")])) ∧
    (_getStandardizedOutputs
        { id := "b", name := "n", run_type := "chain",
          inputs := [("input", JValue.str "x")],
          outputs := some [("output", JValue.num 7)] }
        SchemaFormat.streaming_events = JValue.num 7) := by
  refine ⟨((c2_standardization_amended
    { id := "a", name := "n", run_type := "llm",
      inputs := [("p", JValue.str "q")] }).1 (by decide)).1, ?_⟩
  have h := (((c2_standardization_amended
    { id := "b", name := "n", run_type := "chain",
      inputs := [("input", JValue.str "x")],
      outputs := some [("output", JValue.num 7)] }).2 (by decide)).2
    [("output", JValue.num 7)] rfl)
  rw [h]
  rfl

/-- C9: under the standardized format, a run of a general composition type
whose raw input mapping has exactly one key and whose value under `input`
is the empty string standardizes to `undefined` — the "input not yet known"
sentinel — rather than to the empty string. -/
theorem c9_empty_input_sentinel (run : Run)
    (htype : ["retriever", "llm", "prompt"].contains run.run_type = false)
    (hlen : run.inputs.length = 1)
    (hval : jsGet run.inputs "input" = JValue.str "") :
    _getStandardizedInputs run SchemaFormat.streaming_events =
        Except.ok JValue.undef ∧
      _getStandardizedInputs run SchemaFormat.streaming_events ≠
        Except.ok (JValue.str "") := by
  have hm : ¬run.run_type = "retriever" ∧ ¬run.run_type = "llm" ∧
      ¬run.run_type = "prompt" := by simpa using htype
  have h1 : _getStandardizedInputs run SchemaFormat.streaming_events =
      Except.ok JValue.undef := by
    simp [_getStandardizedInputs, standardizedInputsSE, hm.1, hm.2.1, hm.2.2,
      hlen, hval, isEmptyStr]
  refine ⟨h1, ?_⟩
  rw [h1]
  intro h
  simp at h

/-- Witness for C9: a `chain` run with inputs `{"input": ""}`. -/
theorem c9_empty_input_sentinel_witness :
    _getStandardizedInputs
        { id := "c", name := "n", run_type := "chain",
          inputs := [("input", JValue.str "")] }
        SchemaFormat.streaming_events = Except.ok JValue.undef :=
  (c9_empty_input_sentinel
    { id := "c", name := "n", run_type := "chain",
      inputs := [("input", JValue.str "")] }
    (by decide) rfl rfl).1

/-! ## The run-inclusion filter (log_stream.ts lines 204–214, 348–379) -/

/-- The filter and format configuration of a `LogStreamCallbackHandler`
(`LogStreamCallbackHandlerInput`). -/
structure HandlerConfig where
  includeNames : Option (List String) := none
  includeTypes : Option (List String) := none
  includeTags : Option (List String) := none
  excludeNames : Option (List String) := none
  excludeTypes : Option (List String) := none
  excludeTags : Option (List String) := none
  schemaFormat : SchemaFormat := SchemaFormat.original
  autoClose : Bool := true

/-- `LogStreamCallbackHandler._includeRun`: the root run is always
excluded; otherwise inclusion defaults to "no include set configured",
each configured include set is OR-ed in (name, type, any tag), and each
configured exclude set is AND-ed in as a veto (name, type, any tag). -/
def _includeRun (cfg : HandlerConfig) (rootId : Option String) (run : Run) : Bool :=
  if some run.id = rootId then false
  else
    let runTags := run.tags.getD []
    let include0 :=
      cfg.includeNames = none ∧ cfg.includeTags = none ∧ cfg.includeTypes = none
    let include1 :=
      match cfg.includeNames with
      | some ns => include0 || ns.contains run.name
      | none => include0
    let include2 :=
      match cfg.includeTypes with
      | some ts => include1 || ts.contains run.run_type
      | none => include1
    let include3 :=
      match cfg.includeTags with
      | some ts => include2 || runTags.any fun tag => ts.contains tag
      | none => include2
    let include4 :=
      match cfg.excludeNames with
      | some ns => include3 && !ns.contains run.name
      | none => include3
    let include5 :=
      match cfg.excludeTypes with
      | some ts => include4 && !ts.contains run.run_type
      | none => include4
    match cfg.excludeTags with
    | some ts => include5 && runTags.all fun tag => !ts.contains tag
    | none => include5

/-- C3: for every non-root run, `_includeRun` returns `true` iff the run
matches the include side (no include set configured, or name, type or some
tag in the corresponding include set) and no configured exclude set vetoes
it (name, type, and every tag clear of the corresponding exclude set); in
particular a run matching both an include and an exclude criterion is
excluded. -/
theorem c3_include_filter (cfg : HandlerConfig) (rootId : Option String) (run : Run)
    (hroot : some run.id ≠ rootId) :
    _includeRun cfg rootId run = true ↔
      (((cfg.includeNames = none ∧ cfg.includeTypes = none ∧ cfg.includeTags = none) ∨
          (∃ ns, cfg.includeNames = some ns ∧ run.name ∈ ns) ∨
          (∃ ts, cfg.includeTypes = some ts ∧ run.run_type ∈ ts) ∨
          (∃ ts, cfg.includeTags = some ts ∧ ∃ tag ∈ run.tags.getD [], tag ∈ ts)) ∧
        (∀ ns, cfg.excludeNames = some ns → run.name ∉ ns) ∧
        (∀ ts, cfg.excludeTypes = some ts → run.run_type ∉ ts) ∧
        (∀ ts, cfg.excludeTags = some ts → ∀ tag ∈ run.tags.getD [], tag ∉ ts)) := by
  obtain ⟨inn, int, ing, exn, ext, exg, fmt, ac⟩ := cfg
  simp only [_includeRun, if_neg hroot]
  cases inn <;> cases int <;> cases ing <;> cases exn <;> cases ext <;> cases exg <;>
    simp [List.any_eq_true, List.all_eq_true, and_assoc] <;>
    tauto

/-- Witness for C3: a run matching `includeNames` but also `excludeTags`
is excluded, and the equivalence evaluates accordingly. -/
theorem c3_include_filter_witness :
    some "i9" ≠ (some "root" : Option String) ∧
      ¬(_includeRun
          { includeNames := some ["w"], excludeTags := some ["t1"] }
          (some "root")
          { id := "i9", name := "w", run_type := "chain", tags := some ["t1"] } = true) := by
  constructor
  · simp
  · rw [c3_include_filter
      { includeNames := some ["w"], excludeTags := some ["t1"] }
      (some "root")
      { id := "i9", name := "w", run_type := "chain", tags := some ["t1"] }
      (by simp)]
    intro h
    exact h.2.2.2 ["t1"] rfl "t1" (by simp) (by simp)

/-! ## The tracer state machine (log_stream.ts lines 291–559)

The handler's mutable fields (`rootId`, `keyMapByRunId`,
`counterMapByRunName`) become an explicit state record, and each lifecycle
handler becomes a function from state and run to new state plus the list
of patch operations written to the output channel. The `assignLog` field
is a ghost history of key assignments, recording exactly the writes to
`keyMapByRunId` in order; it has no effect on behaviour and exists only to
state theorems about assigned keys. -/

/-- Rendering of a timestamp. Modelled from the spec: the tracer stores
ISO-8601 time strings; the exact format is irrelevant to the claims, so the
rendering is abstracted to a decimal rendering of the millisecond value. -/
def toISOString (t : Nat) : String := Nat.repr t

/-- Modelled from the spec: the wrapped-string chat chunk synthesized by
`new AIMessageChunk(token)` for a raw token, viewed as a JSON value. -/
def aiMessageChunkJ (token : String) : JValue :=
  JValue.obj [("content", JValue.str token)]

/-- Property read on an arbitrary JSON value (`undefined` off objects). -/
def jGetField : JValue → String → JValue
  | JValue.obj fs, k => jsGet fs k
  | _, _ => JValue.undef

/-- One ghost record of a key assignment performed by `onRunCreate`:
the run id, the run name, the counter value used, and the assigned key. -/
structure Assignment where
  runId : String
  name : String
  count : Nat
  key : String

/-- The mutable state of a `LogStreamCallbackHandler`. -/
structure TracerState where
  rootId : Option String := none
  keyMap : List (String × String) := []
  counterMap : List (String × Nat) := []
  assignLog : List Assignment := []

/-- The initial tracer state. -/
def tracerInit : TracerState := {}

/-- The document key assigned to the `count`-th run bearing a name:
`${run.name}` for the first, `` `${run.name}:${count}` `` afterwards. -/
def keyFor (name : String) (count : Nat) : String :=
  if count = 1 then name else name ++ ":" ++ Nat.repr count

/-- The `LogEntry` object built by `onRunCreate`, as a JSON value; under
the `streaming_events` format the `inputs` property is assigned afterwards,
which appends it to the object. -/
def logEntryJ (cfg : HandlerConfig) (run : Run) : JValue :=
  let base := [
    ("id", JValue.str run.id),
    ("name", JValue.str run.name),
    ("type", JValue.str run.run_type),
    ("tags", JValue.arr ((run.tags.getD []).map JValue.str)),
    ("metadata", JValue.obj (run.extra_metadata.getD [])),
    ("start_time", JValue.str (toISOString run.start_time)),
    ("streamed_output", JValue.arr []),
    ("streamed_output_str", JValue.arr []),
    ("final_output", JValue.undef),
    ("end_time", JValue.undef)]
  if cfg.schemaFormat = SchemaFormat.streaming_events then
    JValue.obj (base ++ [("inputs", standardizedInputsSE run)])
  else
    JValue.obj base

/-- The root document written by the first `onRunCreate`. -/
def rootDoc (run : Run) : JValue :=
  JValue.obj [
    ("id", JValue.str run.id),
    ("name", JValue.str run.name),
    ("type", JValue.str run.run_type),
    ("streamed_output", JValue.arr []),
    ("final_output", JValue.undef),
    ("logs", JValue.obj [])]

/-- `onRunCreate`: the first run becomes the root and the document root is
replaced; then, if the run passes the filter, a key is assigned through the
per-name counter and the log entry is added at `/logs/<key>`. -/
def onRunCreate (cfg : HandlerConfig) (s : TracerState) (run : Run) :
    TracerState × List PatchOp :=
  let s1 := if s.rootId = none then { s with rootId := some run.id } else s
  let ops1 : List PatchOp :=
    if s.rootId = none then [PatchOp.replace [] (rootDoc run)] else []
  if _includeRun cfg s1.rootId run = false then (s1, ops1)
  else
    let count := (assocGet s1.counterMap run.name).getD 0 + 1
    let key := keyFor run.name count
    let s2 : TracerState :=
      { s1 with
        counterMap := assocSet s1.counterMap run.name count,
        keyMap := assocSet s1.keyMap run.id key,
        assignLog := s1.assignLog ++
          [{ runId := run.id, name := run.name, count := count, key := key }] }
    (s2, ops1 ++ [PatchOp.add ["logs", key] (logEntryJ cfg run)])

/-- `onRunUpdate`: for a run with an assigned key, replace its `inputs`
(new schema format only), add its `final_output` and, when an end time is
present, its `end_time`; the `finally` block additionally replaces the
document-level `/final_output` for the root run even when the run has no
assigned key. -/
def onRunUpdate (cfg : HandlerConfig) (s : TracerState) (run : Run) :
    TracerState × List PatchOp :=
  let mainOps : List PatchOp :=
    match assocGet s.keyMap run.id with
    | none => []
    | some runName =>
      (if cfg.schemaFormat = SchemaFormat.streaming_events then
        [PatchOp.replace ["logs", runName, "inputs"] (standardizedInputsSE run)]
      else []) ++
      [PatchOp.add ["logs", runName, "final_output"]
        (_getStandardizedOutputs run cfg.schemaFormat)] ++
      (match run.end_time with
       | some t => [PatchOp.add ["logs", runName, "end_time"] (JValue.str (toISOString t))]
       | none => [])
  let rootOps : List PatchOp :=
    if some run.id = s.rootId then
      [PatchOp.replace ["final_output"] (_getStandardizedOutputs run cfg.schemaFormat)]
    else []
  (s, mainOps ++ rootOps)

/-- `onLLMNewToken`: for a run with an assigned key, append the raw token
to the entry's `streamed_output_str` sequence and the structured chunk
(for chat-style runs the supplied chat generation chunk, or a synthesized
wrapped-string chunk; for plain runs the token itself) to the entry's
`streamed_output` sequence. -/
def onLLMNewToken (s : TracerState) (run : Run) (token : String)
    (chunk : Option JValue) : TracerState × List PatchOp :=
  match assocGet s.keyMap run.id with
  | none => (s, [])
  | some runName =>
    let isChatModel := jsDefined (jsGet run.inputs "messages")
    let streamedOutputValue :=
      if isChatModel then
        match chunk with
        | some c => if jsDefined (jGetField c "message") then c else aiMessageChunkJ token
        | none => aiMessageChunkJ token
      else JValue.str token
    (s, [PatchOp.add ["logs", runName, "streamed_output_str", "-"] (JValue.str token),
         PatchOp.add ["logs", runName, "streamed_output", "-"] streamedOutputValue])

/-- One tapped chunk of `tapOutputIterable`: the root run is skipped, a
missing key is silently ignored (as is a falsy empty-string key), else the
chunk is appended to the entry's `streamed_output` sequence. -/
def onStreamChunk (s : TracerState) (runId : String) (chunk : JValue) :
    TracerState × List PatchOp :=
  if some runId = s.rootId then (s, [])
  else
    match assocGet s.keyMap runId with
    | some key => if key = "" then (s, []) else
        (s, [PatchOp.add ["logs", key, "streamed_output", "-"] chunk])
    | none => (s, [])

/-- A lifecycle notification delivered to the tracer. -/
inductive TEvent where
  | create (run : Run)
  | update (run : Run)
  | llmToken (run : Run) (token : String) (chunk : Option JValue)
  | streamChunk (runId : String) (chunk : JValue)

/-- Dispatch one lifecycle notification. -/
def stepTracer (cfg : HandlerConfig) (s : TracerState) : TEvent → TracerState × List PatchOp
  | TEvent.create run => onRunCreate cfg s run
  | TEvent.update run => onRunUpdate cfg s run
  | TEvent.llmToken run token chunk => onLLMNewToken s run token chunk
  | TEvent.streamChunk runId chunk => onStreamChunk s runId chunk

/-- Process a list of lifecycle notifications, collecting every patch
operation written to the output channel, in order. -/
def runTracer (cfg : HandlerConfig) : TracerState → List TEvent → TracerState × List PatchOp
  | s, [] => (s, [])
  | s, e :: es =>
    ((runTracer cfg (stepTracer cfg s e).1 es).1,
      (stepTracer cfg s e).2 ++ (runTracer cfg (stepTracer cfg s e).1 es).2)

/-! ## C4: the root run never appears as a logs entry -/

/-- The entry stored under key `k` of the `logs` mapping of a document. -/
def logsGet (doc : JValue) (k : String) : Option JValue :=
  match doc with
  | JValue.obj fsd =>
    match assocGet fsd "logs" with
    | some (JValue.obj lfs) => assocGet lfs k
    | _ => none
  | _ => none

/-- The entry is a mapping whose `id` field is the given run id. -/
def entryIdIs (rid : String) (entry : JValue) : Prop :=
  ∃ fs, entry = JValue.obj fs ∧ assocGet fs "id" = some (JValue.str rid)

/-- No entry of the document's `logs` mapping carries the given run id. -/
def docLogsOk (rid : String) (doc : JValue) : Prop :=
  ∀ k e, logsGet doc k = some e → ¬ entryIdIs rid e

theorem docLogsOk_rootDoc (rid : String) (run : Run) : docLogsOk rid (rootDoc run) := by
  intro k e h
  simp [logsGet, rootDoc, assocGet] at h

theorem replaceAt_nil (doc v : JValue) : replaceAt doc [] v = some v := by
  cases doc <;> rfl

/-- Setting a field other than `id` of a mapping leaves its `id` alone;
a non-mapping stays a non-mapping under a deep `addAt`. -/
theorem entryIdIs_addAt {entry e' v : JValue} {f : String} {rest : List String}
    (hf : f ≠ "id") (h : addAt entry (f :: rest) v = some e') (rid : String) :
    entryIdIs rid e' → entryIdIs rid entry := by
  intro ⟨fs', he', hid⟩
  cases entry with
  | obj efs =>
    cases rest with
    | nil =>
      simp only [addAt] at h
      obtain rfl := Option.some.inj h
      obtain rfl : assocSet efs f v = fs' := by
        simpa using he'
      refine ⟨efs, rfl, ?_⟩
      rw [← assocGet_assocSet_ne efs f "id" v hf]
      exact hid
    | cons r rs =>
      simp only [addAt] at h
      cases hg : assocGet efs f with
      | none => simp [hg] at h
      | some child =>
        simp only [hg] at h
        cases hc : addAt child (r :: rs) v with
        | none => simp [hc] at h
        | some c =>
          simp only [hc, Option.map_some] at h
          obtain rfl := Option.some.inj h
          obtain rfl : assocSet efs f c = fs' := by simpa using he'
          refine ⟨efs, rfl, ?_⟩
          rw [← assocGet_assocSet_ne efs f "id" c hf]
          exact hid
  | arr xs =>
    exfalso
    cases rest with
    | nil =>
      simp only [addAt] at h
      by_cases hdash : f = "-"
      · rw [if_pos hdash] at h
        obtain rfl := Option.some.inj h
        simp at he'
      · rw [if_neg hdash] at h
        cases ht : f.toNat? with
        | none => simp [ht] at h
        | some i =>
          simp only [ht] at h
          by_cases hi : i ≤ xs.length
          · rw [if_pos hi] at h
            obtain rfl := Option.some.inj h
            simp at he'
          · rw [if_neg hi] at h; simp at h
    | cons r rs =>
      simp only [addAt] at h
      cases ht : f.toNat? with
      | none => simp [ht] at h
      | some i =>
        simp only [ht] at h
        cases hx : xs[i]? with
        | none => simp [hx] at h
        | some child =>
          simp only [hx] at h
          cases hc : addAt child (r :: rs) v with
          | none => simp [hc] at h
          | some c =>
            simp only [hc, Option.map_some] at h
            obtain rfl := Option.some.inj h
            simp at he'
  | undef => simp [addAt] at h
  | null => simp [addAt] at h
  | bool b => simp [addAt] at h
  | num n => simp [addAt] at h
  | str s => simp [addAt] at h

/-- A deep `replaceAt` below a field other than `id` cannot manufacture a
mapping whose `id` is the root id out of one whose `id` is not. -/
theorem entryIdIs_replaceAt {entry e' v : JValue} {f : String} {rest : List String}
    (hf : f ≠ "id") (h : replaceAt entry (f :: rest) v = some e') (rid : String) :
    entryIdIs rid e' → entryIdIs rid entry := by
  intro ⟨fs', he', hid⟩
  cases entry with
  | obj efs =>
    cases rest with
    | nil =>
      simp only [replaceAt] at h
      cases hg : assocGet efs f with
      | none => simp [hg] at h
      | some old =>
        simp only [hg] at h
        obtain rfl := Option.some.inj h
        obtain rfl : assocSet efs f v = fs' := by simpa using he'
        refine ⟨efs, rfl, ?_⟩
        rw [← assocGet_assocSet_ne efs f "id" v hf]
        exact hid
    | cons r rs =>
      simp only [replaceAt] at h
      cases hg : assocGet efs f with
      | none => simp [hg] at h
      | some child =>
        simp only [hg] at h
        cases hc : replaceAt child (r :: rs) v with
        | none => simp [hc] at h
        | some c =>
          simp only [hc, Option.map_some] at h
          obtain rfl := Option.some.inj h
          obtain rfl : assocSet efs f c = fs' := by simpa using he'
          refine ⟨efs, rfl, ?_⟩
          rw [← assocGet_assocSet_ne efs f "id" c hf]
          exact hid
  | arr xs =>
    exfalso
    cases rest with
    | nil =>
      simp only [replaceAt] at h
      cases ht : f.toNat? with
      | none => simp [ht] at h
      | some i =>
        simp only [ht] at h
        by_cases hi : i < xs.length
        · rw [if_pos hi] at h
          obtain rfl := Option.some.inj h
          simp at he'
        · rw [if_neg hi] at h; simp at h
    | cons r rs =>
      simp only [replaceAt] at h
      cases ht : f.toNat? with
      | none => simp [ht] at h
      | some i =>
        simp only [ht] at h
        cases hx : xs[i]? with
        | none => simp [hx] at h
        | some child =>
          simp only [hx] at h
          cases hc : replaceAt child (r :: rs) v with
          | none => simp [hc] at h
          | some c =>
            simp only [hc, Option.map_some] at h
            obtain rfl := Option.some.inj h
            simp at he'
  | undef => simp [replaceAt] at h
  | null => simp [replaceAt] at h
  | bool b => simp [replaceAt] at h
  | num n => simp [replaceAt] at h
  | str s => simp [replaceAt] at h

/-- `addAt` with a nonempty path maps arrays to arrays. -/
theorem addAt_arr_shape {xs : List JValue} {p : String} {rest : List String} {v out : JValue}
    (h : addAt (JValue.arr xs) (p :: rest) v = some out) : ∃ ys, out = JValue.arr ys := by
  cases rest with
  | nil =>
    simp only [addAt] at h
    by_cases hdash : p = "-"
    · rw [if_pos hdash] at h
      exact ⟨_, (Option.some.inj h).symm⟩
    · rw [if_neg hdash] at h
      cases ht : p.toNat? with
      | none => simp [ht] at h
      | some i =>
        simp only [ht] at h
        by_cases hi : i ≤ xs.length
        · rw [if_pos hi] at h
          exact ⟨_, (Option.some.inj h).symm⟩
        · rw [if_neg hi] at h; simp at h
  | cons r rs =>
    simp only [addAt] at h
    cases ht : p.toNat? with
    | none => simp [ht] at h
    | some i =>
      simp only [ht] at h
      cases hx : xs[i]? with
      | none => simp [hx] at h
      | some child =>
        simp only [hx] at h
        cases hc : addAt child (r :: rs) v with
        | none => simp [hc] at h
        | some c =>
          simp only [hc, Option.map_some] at h
          exact ⟨_, (Option.some.inj h).symm⟩

/-- `replaceAt` with a nonempty path maps arrays to arrays. -/
theorem replaceAt_arr_shape {xs : List JValue} {p : String} {rest : List String} {v out : JValue}
    (h : replaceAt (JValue.arr xs) (p :: rest) v = some out) : ∃ ys, out = JValue.arr ys := by
  cases rest with
  | nil =>
    simp only [replaceAt] at h
    cases ht : p.toNat? with
    | none => simp [ht] at h
    | some i =>
      simp only [ht] at h
      by_cases hi : i < xs.length
      · rw [if_pos hi] at h
        exact ⟨_, (Option.some.inj h).symm⟩
      · rw [if_neg hi] at h; simp at h
  | cons r rs =>
    simp only [replaceAt] at h
    cases ht : p.toNat? with
    | none => simp [ht] at h
    | some i =>
      simp only [ht] at h
      cases hx : xs[i]? with
      | none => simp [hx] at h
      | some child =>
        simp only [hx] at h
        cases hc : replaceAt child (r :: rs) v with
        | none => simp [hc] at h
        | some c =>
          simp only [hc, Option.map_some] at h
          exact ⟨_, (Option.some.inj h).symm⟩

theorem logsGet_arr (ys : List JValue) (k : String) : logsGet (JValue.arr ys) k = none := rfl

/-- Adding a fresh entry at the two-segment path `logs, k` preserves the
logs invariant when the new entry itself is clean. -/
theorem docLogsOk_addAt_entry {rid : String} {doc out v : JValue} {k : String}
    (h : addAt doc ["logs", k] v = some out)
    (hd : docLogsOk rid doc) (hv : ¬ entryIdIs rid v) : docLogsOk rid out := by
  cases doc with
  | obj fsd =>
    simp only [addAt] at h
    cases hg : assocGet fsd "logs" with
    | none => simp [hg] at h
    | some child =>
      simp only [hg] at h
      cases hc : addAt child [k] v with
      | none => simp [hc] at h
      | some c =>
        simp only [hc, Option.map_some] at h
        obtain rfl := Option.some.inj h
        intro k' e hke hbad
        simp only [logsGet, assocGet_assocSet_self] at hke
        cases child with
        | obj lfs =>
          simp only [addAt] at hc
          obtain rfl := Option.some.inj hc
          replace hke : assocGet (assocSet lfs k v) k' = some e := hke
          by_cases hkk : k = k'
          · subst hkk
            rw [assocGet_assocSet_self] at hke
            exact hv ((Option.some.inj hke) ▸ hbad)
          · rw [assocGet_assocSet_ne lfs k k' v hkk] at hke
            exact hd k' e (by simp [logsGet, hg, hke]) hbad
        | arr xs =>
          obtain ⟨ys, rfl⟩ := addAt_arr_shape hc
          simp at hke
        | undef => simp [addAt] at hc
        | null => simp [addAt] at hc
        | bool b => simp [addAt] at hc
        | num n => simp [addAt] at hc
        | str s => simp [addAt] at hc
  | arr xs =>
    obtain ⟨ys, rfl⟩ := addAt_arr_shape h
    intro k' e hke
    simp [logsGet] at hke
  | undef => simp [addAt] at h
  | null => simp [addAt] at h
  | bool b => simp [addAt] at h
  | num n => simp [addAt] at h
  | str s => simp [addAt] at h

/-- A deep `addAt` below `logs, k, f` with `f ≠ "id"` preserves the logs
invariant: it can only rewrite non-`id` parts of the entry at `k`. -/
theorem docLogsOk_addAt_deep {rid : String} {doc out v : JValue} {k f : String}
    {rest : List String} (hf : f ≠ "id")
    (h : addAt doc ("logs" :: k :: f :: rest) v = some out)
    (hd : docLogsOk rid doc) : docLogsOk rid out := by
  cases doc with
  | obj fsd =>
    simp only [addAt] at h
    cases hg : assocGet fsd "logs" with
    | none => simp [hg] at h
    | some child =>
      simp only [hg] at h
      cases hc : addAt child (k :: f :: rest) v with
      | none => simp [hc] at h
      | some c =>
        simp only [hc, Option.map_some] at h
        obtain rfl := Option.some.inj h
        intro k' e hke hbad
        simp only [logsGet, assocGet_assocSet_self] at hke
        cases child with
        | obj lfs =>
          simp only [addAt] at hc
          cases hk2 : assocGet lfs k with
          | none => simp [hk2] at hc
          | some entry =>
            simp only [hk2] at hc
            cases he2 : addAt entry (f :: rest) v with
            | none => simp [he2] at hc
            | some e2 =>
              simp only [he2, Option.map_some] at hc
              obtain rfl := Option.some.inj hc
              replace hke : assocGet (assocSet lfs k e2) k' = some e := hke
              by_cases hkk : k = k'
              · subst hkk
                rw [assocGet_assocSet_self] at hke
                obtain rfl := Option.some.inj hke
                exact hd k entry (by simp [logsGet, hg, hk2])
                  (entryIdIs_addAt hf he2 rid hbad)
              · rw [assocGet_assocSet_ne lfs k k' e2 hkk] at hke
                exact hd k' e (by simp [logsGet, hg, hke]) hbad
        | arr xs =>
          obtain ⟨ys, rfl⟩ := addAt_arr_shape hc
          simp at hke
        | undef => simp [addAt] at hc
        | null => simp [addAt] at hc
        | bool b => simp [addAt] at hc
        | num n => simp [addAt] at hc
        | str s => simp [addAt] at hc
  | arr xs =>
    obtain ⟨ys, rfl⟩ := addAt_arr_shape h
    intro k' e hke
    simp [logsGet] at hke
  | undef => simp [addAt] at h
  | null => simp [addAt] at h
  | bool b => simp [addAt] at h
  | num n => simp [addAt] at h
  | str s => simp [addAt] at h

/-- A deep `replaceAt` below `logs, k, f` with `f ≠ "id"` preserves the
logs invariant. -/
theorem docLogsOk_replaceAt_deep {rid : String} {doc out v : JValue} {k f : String}
    {rest : List String} (hf : f ≠ "id")
    (h : replaceAt doc ("logs" :: k :: f :: rest) v = some out)
    (hd : docLogsOk rid doc) : docLogsOk rid out := by
  cases doc with
  | obj fsd =>
    simp only [replaceAt] at h
    cases hg : assocGet fsd "logs" with
    | none => simp [hg] at h
    | some child =>
      simp only [hg] at h
      cases hc : replaceAt child (k :: f :: rest) v with
      | none => simp [hc] at h
      | some c =>
        simp only [hc, Option.map_some] at h
        obtain rfl := Option.some.inj h
        intro k' e hke hbad
        simp only [logsGet, assocGet_assocSet_self] at hke
        cases child with
        | obj lfs =>
          simp only [replaceAt] at hc
          cases hk2 : assocGet lfs k with
          | none => simp [hk2] at hc
          | some entry =>
            simp only [hk2] at hc
            cases he2 : replaceAt entry (f :: rest) v with
            | none => simp [he2] at hc
            | some e2 =>
              simp only [he2, Option.map_some] at hc
              obtain rfl := Option.some.inj hc
              replace hke : assocGet (assocSet lfs k e2) k' = some e := hke
              by_cases hkk : k = k'
              · subst hkk
                rw [assocGet_assocSet_self] at hke
                obtain rfl := Option.some.inj hke
                exact hd k entry (by simp [logsGet, hg, hk2])
                  (entryIdIs_replaceAt hf he2 rid hbad)
              · rw [assocGet_assocSet_ne lfs k k' e2 hkk] at hke
                exact hd k' e (by simp [logsGet, hg, hke]) hbad
        | arr xs =>
          obtain ⟨ys, rfl⟩ := replaceAt_arr_shape hc
          simp at hke
        | undef => simp [replaceAt] at hc
        | null => simp [replaceAt] at hc
        | bool b => simp [replaceAt] at hc
        | num n => simp [replaceAt] at hc
        | str s => simp [replaceAt] at hc
  | arr xs =>
    obtain ⟨ys, rfl⟩ := replaceAt_arr_shape h
    intro k' e hke
    simp [logsGet] at hke
  | undef => simp [replaceAt] at h
  | null => simp [replaceAt] at h
  | bool b => simp [replaceAt] at h
  | num n => simp [replaceAt] at h
  | str s => simp [replaceAt] at h

/-- Replacing a top-level field other than `logs` preserves the logs
invariant. -/
theorem docLogsOk_replaceAt_top {rid : String} {doc out v : JValue} {p : String}
    (hp : p ≠ "logs") (h : replaceAt doc [p] v = some out)
    (hd : docLogsOk rid doc) : docLogsOk rid out := by
  cases doc with
  | obj fsd =>
    simp only [replaceAt] at h
    cases hg : assocGet fsd p with
    | none => simp [hg] at h
    | some old =>
      simp only [hg] at h
      obtain rfl := Option.some.inj h
      intro k' e hke hbad
      refine hd k' e ?_ hbad
      simp only [logsGet, assocGet_assocSet_ne fsd p "logs" v hp] at hke ⊢
      exact hke
  | arr xs =>
    obtain ⟨ys, rfl⟩ := replaceAt_arr_shape h
    intro k' e hke
    simp [logsGet] at hke
  | undef => simp [replaceAt] at h
  | null => simp [replaceAt] at h
  | bool b => simp [replaceAt] at h
  | num n => simp [replaceAt] at h
  | str s => simp [replaceAt] at h

/-- A property preserved by every operation of a list is preserved by the
successful application of the whole list. -/
theorem applyOps_preserve {P : JValue → Prop} :
    ∀ (ops : List PatchOp) (doc out : JValue),
      (∀ op ∈ ops, ∀ d d', applyOp d op = some d' → P d → P d') →
      applyOps doc ops = some out → P doc → P out := by
  intro ops
  induction ops with
  | nil =>
    intro doc out _ happ hp
    simp only [applyOps] at happ
    exact (Option.some.inj happ) ▸ hp
  | cons op ops ih =>
    intro doc out hops happ hp
    simp only [applyOps] at happ
    cases hop : applyOp doc op with
    | none => rw [hop] at happ; simp at happ
    | some d =>
      rw [hop] at happ
      exact ih d out (fun o ho => hops o (List.mem_cons_of_mem op ho)) happ
        (hops op (List.mem_cons_self op ops) doc d hop hp)

/-- An operation preserves the logs invariant for a given root id. -/
def OpPreserves (rid : String) (op : PatchOp) : Prop :=
  ∀ d d', applyOp d op = some d' → docLogsOk rid d → docLogsOk rid d'

theorem opPreserves_add_deep {rid : String} {k f : String} {rest : List String}
    {v : JValue} (hf : f ≠ "id") :
    OpPreserves rid (PatchOp.add ("logs" :: k :: f :: rest) v) :=
  fun _ _ happ hd => docLogsOk_addAt_deep hf happ hd

theorem opPreserves_replace_deep {rid : String} {k f : String} {rest : List String}
    {v : JValue} (hf : f ≠ "id") :
    OpPreserves rid (PatchOp.replace ("logs" :: k :: f :: rest) v) :=
  fun _ _ happ hd => docLogsOk_replaceAt_deep hf happ hd

theorem opPreserves_replace_top {rid : String} {p : String} {v : JValue}
    (hp : p ≠ "logs") : OpPreserves rid (PatchOp.replace [p] v) :=
  fun _ _ happ hd => docLogsOk_replaceAt_top hp happ hd

/-- The first check of `_includeRun` always rejects the root run itself. -/
theorem _includeRun_root (cfg : HandlerConfig) (rid : String) (run : Run)
    (h : run.id = rid) : _includeRun cfg (some rid) run = false := by
  simp [_includeRun, h]

/-- An included run is not the root. -/
theorem _includeRun_ne_root {cfg : HandlerConfig} {rootId : Option String} {run : Run}
    (h : ¬ _includeRun cfg rootId run = false) : some run.id ≠ rootId := by
  intro heq
  exact h (by simp [_includeRun, heq])

/-- The log entry built for a run carries that run's id. -/
theorem not_entryIdIs_logEntryJ {cfg : HandlerConfig} {run : Run} {rid : String}
    (hne : run.id ≠ rid) : ¬ entryIdIs rid (logEntryJ cfg run) := by
  intro ⟨fs, heq, hid⟩
  by_cases hfmt : cfg.schemaFormat = SchemaFormat.streaming_events
  · rw [logEntryJ, if_pos hfmt] at heq
    obtain rfl : _ = fs := by simpa using heq
    simp [assocGet] at hid
    exact hne hid
  · rw [logEntryJ, if_neg hfmt] at heq
    obtain rfl : _ = fs := by simpa using heq
    simp [assocGet] at hid
    exact hne hid


/-- Unfolding of `onRunCreate` for the very first run: it becomes the root,
the root document is installed, and the run is not logged as an entry. -/
theorem onRunCreate_root {cfg : HandlerConfig} {s : TracerState} (run : Run)
    (hr : s.rootId = none) :
    onRunCreate cfg s run =
      ({ s with rootId := some run.id }, [PatchOp.replace [] (rootDoc run)]) := by
  have hinc : _includeRun cfg (some run.id) run = false :=
    _includeRun_root cfg run.id run rfl
  simp [onRunCreate, hr, hinc]

/-- Unfolding of `onRunCreate` for a later, excluded run: a no-op. -/
theorem onRunCreate_excluded {cfg : HandlerConfig} {s : TracerState} {r : String} (run : Run)
    (hr : s.rootId = some r) (hinc : _includeRun cfg (some r) run = false) :
    onRunCreate cfg s run = (s, []) := by
  simp [onRunCreate, hr, hinc]

/-- Unfolding of `onRunCreate` for a later, included run: the per-name
counter is bumped, a key is assigned and recorded, and the log entry is
added under `logs`. -/
theorem onRunCreate_included {cfg : HandlerConfig} {s : TracerState} {r : String} (run : Run)
    (hr : s.rootId = some r) (hinc : _includeRun cfg (some r) run = true) :
    onRunCreate cfg s run =
      ({ s with
          counterMap :=
            assocSet s.counterMap run.name ((assocGet s.counterMap run.name).getD 0 + 1),
          keyMap := assocSet s.keyMap run.id
            (keyFor run.name ((assocGet s.counterMap run.name).getD 0 + 1)),
          assignLog := s.assignLog ++
            [{ runId := run.id, name := run.name,
               count := (assocGet s.counterMap run.name).getD 0 + 1,
               key := keyFor run.name ((assocGet s.counterMap run.name).getD 0 + 1) }] },
        [PatchOp.add ["logs", keyFor run.name ((assocGet s.counterMap run.name).getD 0 + 1)]
          (logEntryJ cfg run)]) := by
  simp [onRunCreate, hr, hinc]

theorem onRunUpdate_fst (cfg : HandlerConfig) (s : TracerState) (run : Run) :
    (onRunUpdate cfg s run).1 = s := rfl

theorem onLLMNewToken_fst (s : TracerState) (run : Run) (token : String)
    (chunk : Option JValue) : (onLLMNewToken s run token chunk).1 = s := by
  rw [onLLMNewToken.eq_def]
  cases assocGet s.keyMap run.id <;> rfl

theorem onStreamChunk_fst (s : TracerState) (runId : String) (chunk : JValue) :
    (onStreamChunk s runId chunk).1 = s := by
  rw [onStreamChunk]
  by_cases hrt : some runId = s.rootId
  · rw [if_pos hrt]
  · rw [if_neg hrt]
    cases hkm : assocGet s.keyMap runId with
    | none => rfl
    | some key =>
      by_cases hnil : key = ""
      · simp [hnil]
      · simp [hnil]

theorem onLLMNewToken_none {s : TracerState} {run : Run} (token : String)
    (chunk : Option JValue) (hkm : assocGet s.keyMap run.id = none) :
    onLLMNewToken s run token chunk = (s, []) := by
  rw [onLLMNewToken.eq_def, hkm]

theorem onLLMNewToken_ops {s : TracerState} {run : Run} {runName : String}
    (token : String) (chunk : Option JValue)
    (hkm : assocGet s.keyMap run.id = some runName) :
    ∃ v, (onLLMNewToken s run token chunk).2 =
      [PatchOp.add ["logs", runName, "streamed_output_str", "-"] (JValue.str token),
       PatchOp.add ["logs", runName, "streamed_output", "-"] v] := by
  rw [onLLMNewToken.eq_def, hkm]
  exact ⟨_, rfl⟩

theorem onStreamChunk_ops {s : TracerState} {runId : String} {chunk : JValue} :
    ∀ op ∈ (onStreamChunk s runId chunk).2,
      ∃ key, op = PatchOp.add ["logs", key, "streamed_output", "-"] chunk := by
  intro op hop
  rw [onStreamChunk] at hop
  by_cases hrt : some runId = s.rootId
  · rw [if_pos hrt] at hop
    simp at hop
  · rw [if_neg hrt] at hop
    cases hkm : assocGet s.keyMap runId with
    | none => rw [hkm] at hop; simp at hop
    | some key =>
      rw [hkm] at hop
      by_cases hnil : key = ""
      · simp [hnil] at hop
      · simp [hnil] at hop
        exact ⟨key, hop⟩

/-- One tracer step keeps the root id once set and preserves the logs
invariant across a successfully patched document. -/
theorem stepTracer_inv (cfg : HandlerConfig) (s : TracerState) (e : TEvent)
    (doc out : JValue)
    (hd : ∀ rid, s.rootId = some rid → docLogsOk rid doc)
    (happ : applyOps doc (stepTracer cfg s e).2 = some out) :
    (∀ rid, s.rootId = some rid → (stepTracer cfg s e).1.rootId = some rid) ∧
    (∀ rid, (stepTracer cfg s e).1.rootId = some rid → docLogsOk rid out) := by
  cases e with
  | create run =>
    simp only [stepTracer] at happ ⊢
    cases hr : s.rootId with
    | none =>
      rw [onRunCreate_root run hr] at happ ⊢
      simp only [applyOps, applyOp, replaceAt_nil] at happ
      obtain rfl := Option.some.inj happ
      refine ⟨fun rid hrid => absurd hrid (by simp), ?_⟩
      intro rid _
      exact docLogsOk_rootDoc rid run
    | some r =>
      by_cases hinc : _includeRun cfg (some r) run = false
      · rw [onRunCreate_excluded run hr hinc] at happ ⊢
        simp only [applyOps] at happ
        obtain rfl := Option.some.inj happ
        exact ⟨fun rid hrid => hrid ▸ hr ▸ rfl, fun rid hrid => hd rid (hr ▸ hrid)⟩
      · replace hinc : _includeRun cfg (some r) run = true := by
          cases h0 : _includeRun cfg (some r) run
          · exact absurd h0 hinc
          · rfl
        have hne : some run.id ≠ some r :=
          @_includeRun_ne_root cfg (some r) run (by simp [hinc])
        rw [onRunCreate_included run hr hinc] at happ ⊢
        simp only [applyOps, applyOp] at happ
        cases ha : addAt doc
            ["logs", keyFor run.name ((assocGet s.counterMap run.name).getD 0 + 1)]
            (logEntryJ cfg run) with
        | none => rw [ha] at happ; simp at happ
        | some mid =>
          rw [ha] at happ
          simp only [applyOps] at happ
          obtain rfl := Option.some.inj happ
          refine ⟨fun rid hrid => by simpa using (hr ▸ hrid), ?_⟩
          intro rid hrid
          simp only at hrid
          rw [hr] at hrid
          obtain rfl : r = rid := Option.some.inj hrid
          have hne2 : run.id ≠ r := fun hcontra => hne (by rw [hcontra])
          exact docLogsOk_addAt_entry ha (hd r hr) (not_entryIdIs_logEntryJ hne2)
  | update run =>
    simp only [stepTracer] at happ ⊢
    rw [onRunUpdate_fst]
    refine ⟨fun rid hrid => hrid, ?_⟩
    intro rid hrid
    refine applyOps_preserve (onRunUpdate cfg s run).2 doc out ?_ happ (hd rid hrid)
    intro op hop
    simp only [onRunUpdate] at hop
    rw [List.mem_append] at hop
    rcases hop with hmain | hroot
    · cases hkm : assocGet s.keyMap run.id with
      | none => rw [hkm] at hmain; simp at hmain
      | some runName =>
        rw [hkm] at hmain
        rw [List.mem_append, List.mem_append] at hmain
        rcases hmain with (hin | hfin) | hend
        · by_cases hfmt : cfg.schemaFormat = SchemaFormat.streaming_events
          · rw [if_pos hfmt] at hin
            simp at hin
            subst hin
            exact opPreserves_replace_deep (by simp)
          · rw [if_neg hfmt] at hin
            simp at hin
        · simp at hfin
          subst hfin
          exact opPreserves_add_deep (by simp)
        · cases het : run.end_time with
          | none => rw [het] at hend; simp at hend
          | some t =>
            rw [het] at hend
            simp at hend
            subst hend
            exact opPreserves_add_deep (by simp)
    · by_cases hrt : some run.id = s.rootId
      · rw [if_pos hrt] at hroot
        simp at hroot
        subst hroot
        exact opPreserves_replace_top (by simp)
      · rw [if_neg hrt] at hroot
        simp at hroot
  | llmToken run token chunk =>
    simp only [stepTracer] at happ ⊢
    rw [onLLMNewToken_fst]
    refine ⟨fun rid hrid => hrid, ?_⟩
    intro rid hrid
    refine applyOps_preserve (onLLMNewToken s run token chunk).2 doc out ?_ happ (hd rid hrid)
    intro op hop
    cases hkm : assocGet s.keyMap run.id with
    | none =>
      rw [onLLMNewToken_none token chunk hkm] at hop
      simp at hop
    | some runName =>
      obtain ⟨v, hops⟩ := onLLMNewToken_ops token chunk hkm
      rw [hops] at hop
      simp at hop
      rcases hop with rfl | rfl
      · exact opPreserves_add_deep (by simp)
      · exact opPreserves_add_deep (by simp)
  | streamChunk runId chunk =>
    simp only [stepTracer] at happ ⊢
    rw [onStreamChunk_fst]
    refine ⟨fun rid hrid => hrid, ?_⟩
    intro rid hrid
    refine applyOps_preserve (onStreamChunk s runId chunk).2 doc out ?_ happ (hd rid hrid)
    intro op hop
    obtain ⟨key, rfl⟩ := onStreamChunk_ops op hop
    exact opPreserves_add_deep (by simp)

/-- Processing any event list preserves the logs invariant of the
materialized document, relative to the final root id. -/
theorem runTracer_inv (cfg : HandlerConfig) :
    ∀ (es : List TEvent) (s : TracerState) (doc out : JValue),
      (∀ rid, s.rootId = some rid → docLogsOk rid doc) →
      applyOps doc (runTracer cfg s es).2 = some out →
      (∀ rid, (runTracer cfg s es).1.rootId = some rid → docLogsOk rid out) := by
  intro es
  induction es with
  | nil =>
    intro s doc out hd happ
    simp only [runTracer, applyOps] at happ ⊢
    obtain rfl := Option.some.inj happ
    exact hd
  | cons e es ih =>
    intro s doc out hd happ
    simp only [runTracer] at happ ⊢
    rw [applyOps_append] at happ
    cases h1 : applyOps doc (stepTracer cfg s e).2 with
    | none => rw [h1] at happ; simp at happ
    | some mid =>
      rw [h1] at happ
      obtain ⟨_, hdoc⟩ := stepTracer_inv cfg s e doc mid hd h1
      exact ih (stepTracer cfg s e).1 mid out hdoc happ

/-- C4: for every filter configuration and every sequence of lifecycle
notifications, the run bearing the tracer's root id is never included by
`_includeRun`, and the materialized document obtained by replaying every
emitted patch operation from the empty document has no entry under its
`logs` mapping whose `id` equals the root id. -/
theorem c4_root_never_in_logs (cfg : HandlerConfig) (events : List TEvent)
    (doc : JValue) (rid : String)
    (hroot : (runTracer cfg tracerInit events).1.rootId = some rid)
    (hdoc : applyOps emptyDoc (runTracer cfg tracerInit events).2 = some doc) :
    (∀ run : Run, run.id = rid → _includeRun cfg (some rid) run = false) ∧
    (∀ k e, logsGet doc k = some e → ¬ entryIdIs rid e) := by
  refine ⟨fun run hid => _includeRun_root cfg rid run hid, ?_⟩
  intro k e hk
  exact runTracer_inv cfg events tracerInit emptyDoc doc
    (fun rid' h => absurd h (by simp [tracerInit])) hdoc rid hroot k e hk

/-- Witness for C4 at a single-run trace: the root run `r0` is rejected by
the filter and the materialized document (the root document) has no logs
entries at all. -/
theorem c4_root_never_in_logs_witness :
    _includeRun { includeNames := some ["root"] } (some "r0")
        { id := "r0", name := "root", run_type := "chain" } = false ∧
      logsGet (rootDoc { id := "r0", name := "root", run_type := "chain" }) "root" = none := by
  constructor
  · exact (c4_root_never_in_logs { includeNames := some ["root"] }
      [TEvent.create { id := "r0", name := "root", run_type := "chain" }]
      (rootDoc { id := "r0", name := "root", run_type := "chain" }) "r0"
      rfl rfl).1 { id := "r0", name := "root", run_type := "chain" } rfl
  · rfl

/-! ## C5: assigned document keys

The key template appends the decimal rendering of the per-name counter, so
reasoning about key collisions needs injectivity of `Nat.repr`; it is
obtained by relating `Nat.toDigitsCore` to a direct recursion on digits. -/

/-- Decimal digit list of a natural number, most significant first. -/
def decDigits (n : Nat) : List Char :=
  if _h : n < 10 then [Nat.digitChar n]
  else decDigits (n / 10) ++ [Nat.digitChar (n % 10)]
  decreasing_by exact Nat.div_lt_self (by omega) (by omega)

theorem decDigits_lt {n : Nat} (h : n < 10) : decDigits n = [Nat.digitChar n] := by
  rw [decDigits, dif_pos h]

theorem decDigits_ge {n : Nat} (h : ¬ n < 10) :
    decDigits n = decDigits (n / 10) ++ [Nat.digitChar (n % 10)] := by
  conv_lhs => rw [decDigits]
  rw [dif_neg h]

theorem toDigitsCore_eq_decDigits :
    ∀ (f n : Nat) (l : List Char), n < f →
      Nat.toDigitsCore 10 f n l = decDigits n ++ l := by
  intro f
  induction f with
  | zero => omega
  | succ f ih =>
    intro n l hn
    show (if n / 10 = 0 then Nat.digitChar (n % 10) :: l
          else Nat.toDigitsCore 10 f (n / 10) (Nat.digitChar (n % 10) :: l)) = decDigits n ++ l
    by_cases h : n / 10 = 0
    · have hlt : n < 10 := by omega
      rw [if_pos h, decDigits_lt hlt, Nat.mod_eq_of_lt hlt]
      simp
    · have hge : ¬ n < 10 := by omega
      have hdiv : n / 10 < f := by omega
      rw [if_neg h, ih (n / 10) (Nat.digitChar (n % 10) :: l) hdiv, decDigits_ge hge]
      simp

theorem repr_eq_decDigits (n : Nat) : Nat.repr n = (decDigits n).asString := by
  show (Nat.toDigitsCore 10 (n + 1) n []).asString = _
  rw [toDigitsCore_eq_decDigits (n + 1) n [] (by omega)]
  simp

theorem digitChar_inj : ∀ a < 10, ∀ b < 10, Nat.digitChar a = Nat.digitChar b → a = b := by
  decide

theorem concat_inj {α : Type} (l1 l2 : List α) (a b : α)
    (h : l1 ++ [a] = l2 ++ [b]) : l1 = l2 ∧ a = b := by
  have h0 := congrArg List.reverse h
  simp at h0
  obtain ⟨h1, h2⟩ := h0
  exact ⟨by simpa using congrArg List.reverse h2, h1⟩

theorem decDigits_length_pos (n : Nat) : 0 < (decDigits n).length := by
  by_cases h : n < 10
  · rw [decDigits_lt h]; simp
  · rw [decDigits_ge h]; simp

theorem decDigits_inj : ∀ m n : Nat, decDigits m = decDigits n → m = n := by
  intro m
  induction m using Nat.strong_induction_on with
  | _ m ih =>
    intro n h
    by_cases hm : m < 10 <;> by_cases hn : n < 10
    · rw [decDigits_lt hm, decDigits_lt hn] at h
      exact digitChar_inj m hm n hn (by simpa using h)
    · rw [decDigits_lt hm, decDigits_ge hn] at h
      have h1 := congrArg List.length h
      rw [List.length_append] at h1
      simp only [List.length_singleton] at h1
      have h2 := decDigits_length_pos (n / 10)
      omega
    · rw [decDigits_ge hm, decDigits_lt hn] at h
      have h1 := congrArg List.length h
      rw [List.length_append] at h1
      simp only [List.length_singleton] at h1
      have h2 := decDigits_length_pos (m / 10)
      omega
    · rw [decDigits_ge hm, decDigits_ge hn] at h
      obtain ⟨h1, h2⟩ := concat_inj _ _ _ _ h
      have hdiv : m / 10 = n / 10 :=
        ih (m / 10) (Nat.div_lt_self (by omega) (by omega)) _ h1
      have hmod : m % 10 = n % 10 :=
        digitChar_inj _ (Nat.mod_lt _ (by omega)) _ (Nat.mod_lt _ (by omega)) h2
      omega

theorem Nat_repr_inj {m n : Nat} (h : Nat.repr m = Nat.repr n) : m = n := by
  rw [repr_eq_decDigits, repr_eq_decDigits] at h
  exact decDigits_inj m n (congrArg String.data h)

theorem sdata_append (a b : String) : (a ++ b).data = a.data ++ b.data := rfl

/-- Splitting two decorated lists at the first occurrence of a separator
absent from both prefixes. -/
theorem split_first_mem {α : Type} [DecidableEq α] (c : α) :
    ∀ (l1 l2 t1 t2 : List α), c ∉ l1 → c ∉ l2 →
      l1 ++ c :: t1 = l2 ++ c :: t2 → l1 = l2 ∧ t1 = t2 := by
  intro l1
  induction l1 with
  | nil =>
    intro l2 t1 t2 _ h2 h
    cases l2 with
    | nil => simpa using h
    | cons b bs =>
      simp at h
      exact absurd (h.1 ▸ (by simp : b ∈ b :: bs)) h2
  | cons a as ih =>
    intro l2 t1 t2 h1 h2 h
    cases l2 with
    | nil =>
      simp at h
      exact absurd (h.1 ▸ (by simp : a ∈ a :: as)) h1
    | cons b bs =>
      simp at h
      obtain ⟨rfl, h⟩ := h
      have := ih bs t1 t2 (by simp at h1; tauto) (by simp at h2; tauto) h
      simp [this.1, this.2]

theorem string_data_inj {a b : String} (h : a.data = b.data) : a = b := by
  cases a
  cases b
  exact congrArg String.mk h

theorem keyFor_data (nm : String) (c : Nat) (h : ¬ c = 1) :
    (keyFor nm c).data = nm.data ++ ':' :: (Nat.repr c).data := by
  rw [keyFor, if_neg h, sdata_append, sdata_append]
  simp

/-- Two assigned keys built from colon-free names agree only when both the
name and the counter agree. -/
theorem keyFor_inj {nm1 nm2 : String} {c1 c2 : Nat}
    (h1 : ':' ∉ nm1.data) (h2 : ':' ∉ nm2.data)
    (h : keyFor nm1 c1 = keyFor nm2 c2) : nm1 = nm2 ∧ c1 = c2 := by
  by_cases e1 : c1 = 1 <;> by_cases e2 : c2 = 1
  · rw [keyFor, if_pos e1, keyFor, if_pos e2] at h
    exact ⟨h, by omega⟩
  · exfalso
    rw [keyFor, if_pos e1] at h
    have hd := congrArg String.data h
    rw [keyFor_data nm2 c2 e2] at hd
    exact h1 (hd ▸ (by simp : ':' ∈ nm2.data ++ ':' :: (Nat.repr c2).data))
  · exfalso
    have h' := h.symm
    rw [keyFor, if_pos e2] at h'
    have hd := congrArg String.data h'
    rw [keyFor_data nm1 c1 e1] at hd
    exact h2 (hd ▸ (by simp : ':' ∈ nm1.data ++ ':' :: (Nat.repr c1).data))
  · have hd := congrArg String.data h
    rw [keyFor_data nm1 c1 e1, keyFor_data nm2 c2 e2] at hd
    obtain ⟨hnm, hrepr⟩ := split_first_mem ':' nm1.data nm2.data _ _ h1 h2 hd
    exact ⟨string_data_inj hnm, Nat_repr_inj (string_data_inj hrepr)⟩

/-- Invariant tying the per-name counters to the ghost assignment history:
each counter equals the number of assignments made under that name, the
counters recorded for a name are `1, 2, …` in order, every recorded key
follows the `keyFor` template, and no name ever records a counter twice. -/
def AssignInvCore (cm : List (String × Nat)) (log : List Assignment) : Prop :=
  (∀ nm, (assocGet cm nm).getD 0 = (log.filter fun b => b.name == nm).length) ∧
  (∀ nm, ((log.filter fun b => b.name == nm).map Assignment.count) =
      (List.range (log.filter fun b => b.name == nm).length).map (· + 1)) ∧
  (∀ a ∈ log, a.key = keyFor a.name a.count) ∧
  List.Pairwise (fun a b => a.name = b.name → a.count ≠ b.count) log

/-- The assignment invariant of a tracer state. -/
def AssignInv (s : TracerState) : Prop := AssignInvCore s.counterMap s.assignLog

theorem assignInv_init : AssignInv tracerInit := by
  refine ⟨fun nm => rfl, fun nm => rfl, fun a ha => absurd ha (by simp [tracerInit]), ?_⟩
  simp [tracerInit]

/-- Every recorded assignment's counter is positive and bounded by the
number of assignments under its name. -/
theorem assignInvCore_count_bound {cm : List (String × Nat)} {log : List Assignment}
    (h : AssignInvCore cm log) :
    ∀ a ∈ log, 1 ≤ a.count ∧ a.count ≤ (log.filter fun b => b.name == a.name).length := by
  intro a ha
  have hmem : a ∈ log.filter fun b => b.name == a.name :=
    List.mem_filter.mpr ⟨ha, by simp⟩
  have hm : a.count ∈ (log.filter fun b => b.name == a.name).map Assignment.count :=
    List.mem_map_of_mem Assignment.count hmem
  rw [h.2.1 a.name] at hm
  simp only [List.mem_map, List.mem_range] at hm
  obtain ⟨j, hj, hcount⟩ := hm
  omega

/-- Extending the history with the next assignment under a name preserves
the invariant. -/
theorem assignInvCore_extend {cm : List (String × Nat)} {log : List Assignment}
    (h : AssignInvCore cm log) (id nm : String) :
    AssignInvCore (assocSet cm nm ((assocGet cm nm).getD 0 + 1))
      (log ++ [{ runId := id, name := nm, count := (assocGet cm nm).getD 0 + 1,
                 key := keyFor nm ((assocGet cm nm).getD 0 + 1) }]) := by
  obtain ⟨ha, hb, hc, hd⟩ := h
  have hcnt : (assocGet cm nm).getD 0 = (log.filter fun b => b.name == nm).length := ha nm
  set x : Assignment :=
    { runId := id, name := nm, count := (assocGet cm nm).getD 0 + 1,
      key := keyFor nm ((assocGet cm nm).getD 0 + 1) } with hx
  have hfilter_eq : ∀ nm' : String, nm' = nm → ([x].filter fun b => b.name == nm') = [x] := by
    intro nm' heq
    subst heq
    simp [hx]
  have hfilter_ne : ∀ nm' : String, ¬ nm' = nm → ([x].filter fun b => b.name == nm') = [] := by
    intro nm' hne
    have hxname : (x.name == nm') = false := by
      simp only [hx]
      simp only [beq_eq_false_iff_ne, ne_eq]
      intro heq
      exact hne heq.symm
    simp [List.filter, hxname]
  refine ⟨?_, ?_, ?_, ?_⟩
  · intro nm'
    rw [List.filter_append]
    by_cases hnm : nm' = nm
    · subst hnm
      rw [assocGet_assocSet_self, hfilter_eq nm' rfl, List.length_append, hcnt]
      simp
    · rw [assocGet_assocSet_ne cm nm nm' _ (fun heq => hnm heq.symm),
        hfilter_ne nm' hnm, List.append_nil]
      exact ha nm'
  · intro nm'
    rw [List.filter_append]
    by_cases hnm : nm' = nm
    · subst hnm
      rw [hfilter_eq nm' rfl, List.map_append, List.length_append, hb nm']
      have hxc : x.count = (log.filter fun b => b.name == nm').length + 1 := by
        simp only [hx, hcnt]
      have hmapx : ([x] : List Assignment).map Assignment.count = [x.count] := rfl
      have hone : ([x] : List Assignment).length = 1 := rfl
      rw [hmapx, hone, hxc, List.range_succ, List.map_append]
      simp
    · rw [hfilter_ne nm' hnm, List.append_nil]
      exact hb nm'
  · intro a haa
    rw [List.mem_append] at haa
    rcases haa with hold | hnew
    · exact hc a hold
    · simp only [List.mem_singleton] at hnew
      subst hnew
      rfl
  · rw [List.pairwise_append]
    refine ⟨hd, by simp, ?_⟩
    intro a hold b hnew hname
    simp only [List.mem_singleton] at hnew
    subst hnew
    have hbound := assignInvCore_count_bound ⟨ha, hb, hc, hd⟩ a hold
    have hnamex : a.name = nm := by simpa [hx] using hname
    rw [hnamex] at hbound
    rw [← hcnt] at hbound
    have hxc : x.count = (assocGet cm nm).getD 0 + 1 := by simp [hx]
    omega

theorem stepTracer_assignInv (cfg : HandlerConfig) (s : TracerState) (e : TEvent)
    (h : AssignInv s) : AssignInv (stepTracer cfg s e).1 := by
  cases e with
  | update run => rw [stepTracer, onRunUpdate_fst]; exact h
  | llmToken run token chunk => rw [stepTracer, onLLMNewToken_fst]; exact h
  | streamChunk runId chunk => rw [stepTracer, onStreamChunk_fst]; exact h
  | create run =>
    rw [stepTracer]
    cases hr : s.rootId with
    | none =>
      rw [onRunCreate_root run hr]
      exact h
    | some r =>
      by_cases hinc : _includeRun cfg (some r) run = false
      · rw [onRunCreate_excluded run hr hinc]
        exact h
      · replace hinc : _includeRun cfg (some r) run = true := by
          cases h0 : _includeRun cfg (some r) run
          · exact absurd h0 hinc
          · rfl
        rw [onRunCreate_included run hr hinc]
        exact assignInvCore_extend h run.id run.name

theorem runTracer_assignInv (cfg : HandlerConfig) :
    ∀ (es : List TEvent) (s : TracerState), AssignInv s →
      AssignInv (runTracer cfg s es).1 := by
  intro es
  induction es with
  | nil => intro s h; exact h
  | cons e es ih =>
    intro s h
    exact ih (stepTracer cfg s e).1 (stepTracer_assignInv cfg s e h)

/-- C5 counterexample: with runs named `a`, `a`, `a:2` created in that
order (after a root run), the third run's bare-name key `a:2` collides
with the key already assigned to the second run — the key `a:2` is
assigned to two different runs, contradicting the claim that a key, once
assigned, is never reassigned to a different run. -/
theorem c5_key_collision :
    assocGet (runTracer {} tracerInit
        [TEvent.create { id := "r0", name := "w", run_type := "chain" },
         TEvent.create { id := "i1", name := "a", run_type := "chain" },
         TEvent.create { id := "i2", name := "a", run_type := "chain" },
         TEvent.create { id := "i3", name := "a:2", run_type := "chain" }]).1.keyMap
        "i2" = some "a:2" ∧
    assocGet (runTracer {} tracerInit
        [TEvent.create { id := "r0", name := "w", run_type := "chain" },
         TEvent.create { id := "i1", name := "a", run_type := "chain" },
         TEvent.create { id := "i2", name := "a", run_type := "chain" },
         TEvent.create { id := "i3", name := "a:2", run_type := "chain" }]).1.keyMap
        "i3" = some "a:2" ∧
    ("i2" : String) ≠ "i3" := by
  refine ⟨by decide, by decide, by decide⟩

/-- C5 amended: the n-th included run bearing a given name (in discovery
order) is assigned the bare name as key when n = 1 and `name:n` when
n ≥ 2; and provided no created run's name contains a colon, the assigned
keys are pairwise distinct, so a key is never reassigned to a different
run. (Without the colon proviso a run literally named `name:n` can collide
with an assigned key, as the counterexample shows.) -/
theorem c5_keys_amended (cfg : HandlerConfig) (events : List TEvent) :
    (∀ (nm : String) (i : Nat)
      (h : i < ((runTracer cfg tracerInit events).1.assignLog.filter
          fun b => b.name == nm).length),
      (((runTracer cfg tracerInit events).1.assignLog.filter
          fun b => b.name == nm).get ⟨i, h⟩).key =
        if i = 0 then nm else nm ++ ":" ++ Nat.repr (i + 1)) ∧
    ((∀ a ∈ (runTracer cfg tracerInit events).1.assignLog, ':' ∉ a.name.data) →
      List.Pairwise (fun a b => a.key ≠ b.key)
        (runTracer cfg tracerInit events).1.assignLog) := by
  obtain ⟨ha, hb, hc, hd⟩ := runTracer_assignInv cfg events tracerInit assignInv_init
  constructor
  · intro nm i h
    set log := (runTracer cfg tracerInit events).1.assignLog with hlog
    have hmem : (log.filter fun b => b.name == nm).get ⟨i, h⟩ ∈
        (log.filter fun b => b.name == nm) := List.get_mem _ i h
    have hmem' := List.mem_filter.mp hmem
    have hname : ((log.filter fun b => b.name == nm).get ⟨i, h⟩).name = nm := by
      simpa using hmem'.2
    have hcount : ((log.filter fun b => b.name == nm).get ⟨i, h⟩).count = i + 1 := by
      rw [List.get_eq_getElem]
      have e1 : ((log.filter fun b => b.name == nm).map Assignment.count)[i]? =
          some (((log.filter fun b => b.name == nm)[i]).count) := by
        rw [List.getElem?_map, List.getElem?_eq_getElem h]
        rfl
      rw [hb nm, List.getElem?_map,
        List.getElem?_eq_getElem (by simpa using h : i < (List.range
          (log.filter fun b => b.name == nm).length).length)] at e1
      simp only [List.getElem_range] at e1
      exact (Option.some.inj e1).symm
    rw [hc _ hmem'.1, hname, hcount]
    by_cases hi : i = 0
    · subst hi
      simp [keyFor]
    · rw [keyFor, if_neg (by omega), if_neg hi]
  · intro hfree
    refine hd.imp_of_mem ?_
    intro a b haa hbb hR heq
    rw [hc a haa, hc b hbb] at heq
    obtain ⟨hn, hcnt⟩ := keyFor_inj (hfree a haa) (hfree b hbb) heq
    exact hR hn hcnt

/-- Witness for C5 amended: two sibling runs named `a` receive the
pairwise-distinct keys `a` and `a:2`. -/
theorem c5_keys_amended_witness :
    List.Pairwise (fun a b => a.key ≠ b.key)
      (runTracer {} tracerInit
        [TEvent.create { id := "r0", name := "w", run_type := "chain" },
         TEvent.create { id := "i1", name := "a", run_type := "chain" },
         TEvent.create { id := "i2", name := "a", run_type := "chain" }]).1.assignLog :=
  (c5_keys_amended {}
    [TEvent.create { id := "r0", name := "w", run_type := "chain" },
     TEvent.create { id := "i1", name := "a", run_type := "chain" },
     TEvent.create { id := "i2", name := "a", run_type := "chain" }]).2 (by decide)

/-! ## The marshalling protocol (remote.ts)

Runtime values flowing through `serialize` / `revive` are modelled by
`Val`: plain JSON data (with `Date` and `undefined`), plus the typed
domain-value classes that `revive` constructs. The classes themselves
(messages, `Document`, generation chunks, prompt values) live outside the
verified sources; their content-bearing fields and their discriminant
`type` tags are modelled from the spec (the wire shapes named in the
revival signature dispatch). -/

/-- The message subtype of a message or message chunk. -/
inductive MsgKind where
  | human
  | ai
  | system
  | chat
  | func
  | tool
  | humanChunk
  | aiChunk
  | systemChunk
  | chatChunk
  | funcChunk
  | toolChunk
  deriving DecidableEq

/-- Modelled from the spec: the discriminant `type` field a message
carries on the wire (`input._getType()` for base messages; the identifying
class tag for chunks, which `revive` matches verbatim). -/
def MsgKind.typeTag : MsgKind → String
  | MsgKind.human => "human"
  | MsgKind.ai => "ai"
  | MsgKind.system => "system"
  | MsgKind.chat => "chat"
  | MsgKind.func => "function"
  | MsgKind.tool => "tool"
  | MsgKind.humanChunk => "HumanMessageChunk"
  | MsgKind.aiChunk => "AIMessageChunk"
  | MsgKind.systemChunk => "SystemMessageChunk"
  | MsgKind.chatChunk => "ChatMessageChunk"
  | MsgKind.funcChunk => "FunctionMessageChunk"
  | MsgKind.toolChunk => "ToolMessageChunk"

/-- Modelled from the spec: `ToolMessage.isInstance` for tool-style
messages (which carry `tool_call_id`). -/
def MsgKind.isToolLike : MsgKind → Bool
  | MsgKind.tool => true
  | MsgKind.toolChunk => true
  | _ => false

/-- Modelled from the spec: `ChatMessage.isInstance` for chat-style
messages (which carry `role`). -/
def MsgKind.isChatLike : MsgKind → Bool
  | MsgKind.chat => true
  | MsgKind.chatChunk => true
  | _ => false

/-- Function-style messages (which carry `name` through revival). -/
def MsgKind.isFuncLike : MsgKind → Bool
  | MsgKind.func => true
  | MsgKind.funcChunk => true
  | _ => false

/-- A runtime value of the marshalling layer: plain JSON data (`vundef`
models the JavaScript `undefined`, `vdate` a `Date` scalar) together with
the typed domain values that `serialize` consumes and `revive` produces. -/
inductive Val where
  | vundef
  | vnull
  | vbool (b : Bool)
  | vnum (n : Int)
  | vstr (s : String)
  | vdate (t : Int)
  | varr (items : List Val)
  | vobj (fields : List (String × Val))
  | vdoc (page_content : Val) (metadata : Val)
  | vmsg (kind : MsgKind) (content : Val) (name : Val) (role : Val)
      (tool_call_id : Val) (additional_kwargs : Val)
  | vgenChunk (text : Val) (generation_info : Val)
  | vchatGenChunk (message : Val) (text : Val) (generation_info : Val)
  | vstringPromptValue (text : Val)
  | vchatPromptValue (messages : List Val)

/-- JavaScript property read on a mapping's field list. -/
def vGet (fs : List (String × Val)) (k : String) : Val :=
  (assocGet fs k).getD Val.vundef

/-- `isSuperset(new Set(Object.keys(obj)), new Set(req))`. -/
def hasKeys (fs : List (String × Val)) (req : List String) : Bool :=
  req.all fun k => (fs.map Prod.fst).contains k

/-- `obj.type === s`. -/
def typeIs (fs : List (String × Val)) (s : String) : Bool :=
  match vGet fs "type" with
  | Val.vstr s2 => s2 = s
  | _ => false

mutual

/-- `serialize`: arrays element-wise; base messages become a plain mapping
carrying `content` / `type` / `additional_kwargs` / `name` / `example`
plus `tool_call_id` (tool) or `role` (chat); `null` and `Date` pass
through; other objects recurse field-wise over their enumerable fields
(modelled from the spec for the non-message typed classes: snake_case
content fields plus a discriminant `type` tag for generation chunks);
scalars pass through. -/
def serialize : Val → Val
  | Val.varr xs => Val.varr (serializeList xs)
  | Val.vmsg k c n r t kw =>
    Val.vobj
      ([("content", c), ("type", Val.vstr k.typeTag), ("additional_kwargs", kw),
        ("name", n), ("example", Val.vbool false)] ++
        (if k.isToolLike then [("tool_call_id", t)]
         else if k.isChatLike then [("role", r)]
         else []))
  | Val.vundef => Val.vundef
  | Val.vnull => Val.vnull
  | Val.vbool b => Val.vbool b
  | Val.vnum n => Val.vnum n
  | Val.vstr s => Val.vstr s
  | Val.vdate t => Val.vdate t
  | Val.vobj fs => Val.vobj (serializeFields fs)
  | Val.vdoc pc md =>
    Val.vobj [("page_content", serialize pc), ("metadata", serialize md)]
  | Val.vgenChunk t gi =>
    Val.vobj [("text", serialize t), ("generation_info", serialize gi),
      ("type", Val.vstr "GenerationChunk")]
  | Val.vchatGenChunk m t gi =>
    Val.vobj [("text", serialize t), ("generation_info", serialize gi),
      ("type", Val.vstr "ChatGenerationChunk"), ("message", serialize m)]
  | Val.vstringPromptValue t => Val.vobj [("text", serialize t)]
  | Val.vchatPromptValue ms => Val.vobj [("messages", Val.varr (serializeList ms))]

def serializeList : List Val → List Val
  | [] => []
  | x :: xs => serialize x :: serializeList xs

def serializeFields : List (String × Val) → List (String × Val)
  | [] => []
  | (k, v) :: fs => (k, serialize v) :: serializeFields fs

end

theorem sizeOf_assocGet {fs : List (String × Val)} {k : String} {v : Val}
    (h : assocGet fs k = some v) : sizeOf v < sizeOf fs := by
  induction fs with
  | nil => simp [assocGet] at h
  | cons hd tl ih =>
    obtain ⟨k0, v0⟩ := hd
    simp only [assocGet] at h
    by_cases hk : k0 = k
    · rw [if_pos hk] at h
      obtain rfl := Option.some.inj h
      simp
      omega
    · rw [if_neg hk] at h
      have := ih h
      simp
      omega

theorem sizeOf_vGet (fs : List (String × Val)) (k : String) :
    sizeOf (vGet fs k) ≤ sizeOf fs := by
  rw [vGet]
  cases h : assocGet fs k with
  | none =>
    simp only [Option.getD_none]
    cases fs with
    | nil => simp
    | cons hd tl => simp [Val.vundef.sizeOf_spec]; omega
  | some v =>
    simp only [Option.getD_some]
    exact Nat.le_of_lt (sizeOf_assocGet h)

/-- The result of reviving a message-signature mapping, per subtype: the
source constructs each message from `content` alone, plus `role` for chat
messages, `name` for function messages and `tool_call_id` for tool
messages; modelled constructors default `name` / `role` / `tool_call_id`
to `undefined` and `additional_kwargs` to the empty mapping. -/
def reviveMsgOfKind (k : MsgKind) (c n r t : Val) : Val :=
  if k.isChatLike then Val.vmsg k c Val.vundef r Val.vundef (Val.vobj [])
  else if k.isToolLike then Val.vmsg k c Val.vundef Val.vundef t (Val.vobj [])
  else if k.isFuncLike then Val.vmsg k c n Val.vundef Val.vundef (Val.vobj [])
  else Val.vmsg k c Val.vundef Val.vundef Val.vundef (Val.vobj [])

mutual

/-- `revive`: arrays element-wise; `null` and `Date` pass through; a
mapping is dispatched on its key set in source order (document, message by
`type`, generation by `type`, agent action / finish, LLM result,
`{messages}` chat prompt value, `{text}` string prompt value), falling
through to generic field-wise recursion; other scalars pass through.
`none` models the `TypeError` raised when the `{messages}` branch calls
`.map` on a non-array. For inputs that are already typed class instances
(which JavaScript dispatches through their enumerable fields) each case is
the signature dispatch evaluated on the fields modelled from the spec. -/
def revive : Val → Option Val
  | Val.varr xs => (reviveList xs).map Val.varr
  | Val.vobj fs =>
    if hasKeys fs ["page_content", "metadata"] then
      some (Val.vdoc (vGet fs "page_content") (vGet fs "metadata"))
    else if hasKeys fs ["content", "type", "additional_kwargs"] &&
        (typeIs fs "HumanMessage" || typeIs fs "human") then
      some (reviveMsgOfKind MsgKind.human (vGet fs "content") (vGet fs "name")
        (vGet fs "role") (vGet fs "tool_call_id"))
    else if hasKeys fs ["content", "type", "additional_kwargs"] &&
        (typeIs fs "SystemMessage" || typeIs fs "system") then
      some (reviveMsgOfKind MsgKind.system (vGet fs "content") (vGet fs "name")
        (vGet fs "role") (vGet fs "tool_call_id"))
    else if hasKeys fs ["content", "type", "additional_kwargs"] &&
        (typeIs fs "ChatMessage" || typeIs fs "chat") then
      some (reviveMsgOfKind MsgKind.chat (vGet fs "content") (vGet fs "name")
        (vGet fs "role") (vGet fs "tool_call_id"))
    else if hasKeys fs ["content", "type", "additional_kwargs"] &&
        (typeIs fs "FunctionMessage" || typeIs fs "function") then
      some (reviveMsgOfKind MsgKind.func (vGet fs "content") (vGet fs "name")
        (vGet fs "role") (vGet fs "tool_call_id"))
    else if hasKeys fs ["content", "type", "additional_kwargs"] &&
        (typeIs fs "ToolMessage" || typeIs fs "tool") then
      some (reviveMsgOfKind MsgKind.tool (vGet fs "content") (vGet fs "name")
        (vGet fs "role") (vGet fs "tool_call_id"))
    else if hasKeys fs ["content", "type", "additional_kwargs"] &&
        (typeIs fs "AIMessage" || typeIs fs "ai") then
      some (reviveMsgOfKind MsgKind.ai (vGet fs "content") (vGet fs "name")
        (vGet fs "role") (vGet fs "tool_call_id"))
    else if hasKeys fs ["content", "type", "additional_kwargs"] &&
        typeIs fs "HumanMessageChunk" then
      some (reviveMsgOfKind MsgKind.humanChunk (vGet fs "content") (vGet fs "name")
        (vGet fs "role") (vGet fs "tool_call_id"))
    else if hasKeys fs ["content", "type", "additional_kwargs"] &&
        typeIs fs "SystemMessageChunk" then
      some (reviveMsgOfKind MsgKind.systemChunk (vGet fs "content") (vGet fs "name")
        (vGet fs "role") (vGet fs "tool_call_id"))
    else if hasKeys fs ["content", "type", "additional_kwargs"] &&
        typeIs fs "ChatMessageChunk" then
      some (reviveMsgOfKind MsgKind.chatChunk (vGet fs "content") (vGet fs "name")
        (vGet fs "role") (vGet fs "tool_call_id"))
    else if hasKeys fs ["content", "type", "additional_kwargs"] &&
        typeIs fs "FunctionMessageChunk" then
      some (reviveMsgOfKind MsgKind.funcChunk (vGet fs "content") (vGet fs "name")
        (vGet fs "role") (vGet fs "tool_call_id"))
    else if hasKeys fs ["content", "type", "additional_kwargs"] &&
        typeIs fs "ToolMessageChunk" then
      some (reviveMsgOfKind MsgKind.toolChunk (vGet fs "content") (vGet fs "name")
        (vGet fs "role") (vGet fs "tool_call_id"))
    else if hasKeys fs ["content", "type", "additional_kwargs"] &&
        typeIs fs "AIMessageChunk" then
      some (reviveMsgOfKind MsgKind.aiChunk (vGet fs "content") (vGet fs "name")
        (vGet fs "role") (vGet fs "tool_call_id"))
    else if hasKeys fs ["text", "generation_info", "type"] &&
        typeIs fs "ChatGenerationChunk" then
      (revive (vGet fs "message")).map fun m =>
        Val.vchatGenChunk m (vGet fs "text") (vGet fs "generation_info")
    else if hasKeys fs ["text", "generation_info", "type"] &&
        typeIs fs "ChatGeneration" then
      (revive (vGet fs "message")).map fun m =>
        Val.vobj [("message", m), ("text", vGet fs "text"),
          ("generationInfo", vGet fs "generation_info")]
    else if hasKeys fs ["text", "generation_info", "type"] &&
        typeIs fs "GenerationChunk" then
      some (Val.vgenChunk (vGet fs "text") (vGet fs "generation_info"))
    else if hasKeys fs ["text", "generation_info", "type"] &&
        typeIs fs "Generation" then
      some (Val.vobj [("text", vGet fs "text"),
        ("generationInfo", vGet fs "generation_info")])
    else if hasKeys fs ["tool", "tool_input", "log", "type"] &&
        typeIs fs "AgentAction" then
      some (Val.vobj [("tool", vGet fs "tool"), ("toolInput", vGet fs "tool_input"),
        ("log", vGet fs "log")])
    else if hasKeys fs ["return_values", "log", "type"] &&
        typeIs fs "AgentFinish" then
      some (Val.vobj [("returnValues", vGet fs "return_values"),
        ("log", vGet fs "log")])
    else if hasKeys fs ["generations", "run", "type"] &&
        typeIs fs "LLMResult" then
      (revive (vGet fs "generations")).map fun g =>
        Val.vobj [("generations", g), ("llmOutput", vGet fs "llm_output"),
          ("__run", vGet fs "run")]
    else if hasKeys fs ["messages"] then
      match _hm : vGet fs "messages" with
      | Val.varr ms => (reviveList ms).map Val.vchatPromptValue
      | _ => none
    else if hasKeys fs ["text"] then
      some (Val.vstringPromptValue (vGet fs "text"))
    else
      (reviveFields fs).map Val.vobj
  | Val.vundef => some Val.vundef
  | Val.vnull => some Val.vnull
  | Val.vbool b => some (Val.vbool b)
  | Val.vnum n => some (Val.vnum n)
  | Val.vstr s => some (Val.vstr s)
  | Val.vdate t => some (Val.vdate t)
  | Val.vdoc pc md => some (Val.vdoc pc md)
  | Val.vmsg k c n r t _kw => some (reviveMsgOfKind k c n r t)
  | Val.vgenChunk t gi => some (Val.vgenChunk t gi)
  | Val.vchatGenChunk m t gi =>
    (revive m).map fun m2 => Val.vchatGenChunk m2 t gi
  | Val.vstringPromptValue t => some (Val.vstringPromptValue t)
  | Val.vchatPromptValue ms => (reviveList ms).map Val.vchatPromptValue

termination_by v => sizeOf v
decreasing_by
  all_goals simp_wf
  all_goals first
    | omega
    | (have h9 := sizeOf_vGet fs "message"; omega)
    | (have h9 := sizeOf_vGet fs "generations"; omega)
    | (have h2 := sizeOf_vGet fs "messages"; rw [_hm] at h2; simp at h2; omega)

def reviveList : List Val → Option (List Val)
  | [] => some []
  | x :: xs =>
    match revive x, reviveList xs with
    | some y, some ys => some (y :: ys)
    | _, _ => none
termination_by xs => sizeOf xs
decreasing_by
  all_goals simp_wf
  all_goals omega

def reviveFields : List (String × Val) → Option (List (String × Val))
  | [] => some []
  | (k, v) :: fs =>
    match revive v, reviveFields fs with
    | some w, some gs => some ((k, w) :: gs)
    | _, _ => none
termination_by fs => sizeOf fs
decreasing_by
  all_goals simp_wf
  all_goals omega

end

/-! ## C6: the serialize / revive round trip -/

/-- Plain wire data: JSON values (plus `Date` and `undefined` scalars)
containing no typed class instances. `serialize` is the identity here. -/
inductive PlainData : Val → Prop
  | undef : PlainData Val.vundef
  | null : PlainData Val.vnull
  | bool (b : Bool) : PlainData (Val.vbool b)
  | num (n : Int) : PlainData (Val.vnum n)
  | str (s : String) : PlainData (Val.vstr s)
  | date (t : Int) : PlainData (Val.vdate t)
  | arr (xs : List Val) : (∀ x ∈ xs, PlainData x) → PlainData (Val.varr xs)
  | obj (fs : List (String × Val)) : (∀ kv ∈ fs, PlainData kv.2) →
      PlainData (Val.vobj fs)

theorem serializeList_congr : ∀ xs : List Val,
    (∀ x ∈ xs, serialize x = x) → serializeList xs = xs := by
  intro xs
  induction xs with
  | nil => intro _; rfl
  | cons x xs ih =>
    intro h
    rw [serializeList, h x (by simp), ih (fun y hy => h y (by simp [hy]))]

theorem serializeFields_congr : ∀ fs : List (String × Val),
    (∀ kv ∈ fs, serialize kv.2 = kv.2) → serializeFields fs = fs := by
  intro fs
  induction fs with
  | nil => intro _; rfl
  | cons kv fs ih =>
    intro h
    obtain ⟨k, v⟩ := kv
    rw [serializeFields, h (k, v) (by simp), ih (fun p hp => h p (by simp [hp]))]

theorem serialize_plain {v : Val} (h : PlainData v) : serialize v = v := by
  induction h with
  | undef => rfl
  | null => rfl
  | bool b => rfl
  | num n => rfl
  | str s => rfl
  | date t => rfl
  | arr xs h ih => rw [serialize, serializeList_congr xs ih]
  | obj fs h ih => rw [serialize, serializeFields_congr fs ih]

/-- A message value in the shape the round trip can reproduce exactly:
empty additional kwargs, and `name` / `role` / `tool_call_id` present only
where the corresponding subtype carries them through revival. -/
def MsgSupported : Val → Prop
  | Val.vmsg k _c n r t kw =>
    kw = Val.vobj [] ∧
    (k.isFuncLike = true ∨ n = Val.vundef) ∧
    (k.isChatLike = true ∨ r = Val.vundef) ∧
    (k.isToolLike = true ∨ t = Val.vundef)
  | _ => False

/-- The typed domain values whose round trip reproduces them exactly. -/
def Supported : Val → Prop
  | Val.vmsg k c n r t kw => MsgSupported (Val.vmsg k c n r t kw)
  | Val.vdoc pc md => PlainData pc ∧ PlainData md
  | Val.vgenChunk t gi => PlainData t ∧ PlainData gi
  | Val.vchatGenChunk m t gi => MsgSupported m ∧ PlainData t ∧ PlainData gi
  | Val.vstringPromptValue t => PlainData t
  | Val.vchatPromptValue ms => ∀ m ∈ ms, MsgSupported m
  | _ => False

theorem msg_roundtrip (k : MsgKind) (c n r t : Val)
    (hn : k.isFuncLike = true ∨ n = Val.vundef)
    (hr : k.isChatLike = true ∨ r = Val.vundef)
    (ht : k.isToolLike = true ∨ t = Val.vundef) :
    revive (serialize (Val.vmsg k c n r t (Val.vobj []))) =
      some (Val.vmsg k c n r t (Val.vobj [])) := by
  cases k with
  | human =>
    obtain rfl := hn.resolve_left (by decide)
    obtain rfl := hr.resolve_left (by decide)
    obtain rfl := ht.resolve_left (by decide)
    simp [serialize, revive, hasKeys, typeIs, vGet, assocGet, MsgKind.typeTag,
      MsgKind.isToolLike, MsgKind.isChatLike, MsgKind.isFuncLike, reviveMsgOfKind]
  | ai =>
    obtain rfl := hn.resolve_left (by decide)
    obtain rfl := hr.resolve_left (by decide)
    obtain rfl := ht.resolve_left (by decide)
    simp [serialize, revive, hasKeys, typeIs, vGet, assocGet, MsgKind.typeTag,
      MsgKind.isToolLike, MsgKind.isChatLike, MsgKind.isFuncLike, reviveMsgOfKind]
  | system =>
    obtain rfl := hn.resolve_left (by decide)
    obtain rfl := hr.resolve_left (by decide)
    obtain rfl := ht.resolve_left (by decide)
    simp [serialize, revive, hasKeys, typeIs, vGet, assocGet, MsgKind.typeTag,
      MsgKind.isToolLike, MsgKind.isChatLike, MsgKind.isFuncLike, reviveMsgOfKind]
  | chat =>
    obtain rfl := hn.resolve_left (by decide)
    obtain rfl := ht.resolve_left (by decide)
    simp [serialize, revive, hasKeys, typeIs, vGet, assocGet, MsgKind.typeTag,
      MsgKind.isToolLike, MsgKind.isChatLike, MsgKind.isFuncLike, reviveMsgOfKind]
  | func =>
    obtain rfl := hr.resolve_left (by decide)
    obtain rfl := ht.resolve_left (by decide)
    simp [serialize, revive, hasKeys, typeIs, vGet, assocGet, MsgKind.typeTag,
      MsgKind.isToolLike, MsgKind.isChatLike, MsgKind.isFuncLike, reviveMsgOfKind]
  | tool =>
    obtain rfl := hn.resolve_left (by decide)
    obtain rfl := hr.resolve_left (by decide)
    simp [serialize, revive, hasKeys, typeIs, vGet, assocGet, MsgKind.typeTag,
      MsgKind.isToolLike, MsgKind.isChatLike, MsgKind.isFuncLike, reviveMsgOfKind]
  | humanChunk =>
    obtain rfl := hn.resolve_left (by decide)
    obtain rfl := hr.resolve_left (by decide)
    obtain rfl := ht.resolve_left (by decide)
    simp [serialize, revive, hasKeys, typeIs, vGet, assocGet, MsgKind.typeTag,
      MsgKind.isToolLike, MsgKind.isChatLike, MsgKind.isFuncLike, reviveMsgOfKind]
  | aiChunk =>
    obtain rfl := hn.resolve_left (by decide)
    obtain rfl := hr.resolve_left (by decide)
    obtain rfl := ht.resolve_left (by decide)
    simp [serialize, revive, hasKeys, typeIs, vGet, assocGet, MsgKind.typeTag,
      MsgKind.isToolLike, MsgKind.isChatLike, MsgKind.isFuncLike, reviveMsgOfKind]
  | systemChunk =>
    obtain rfl := hn.resolve_left (by decide)
    obtain rfl := hr.resolve_left (by decide)
    obtain rfl := ht.resolve_left (by decide)
    simp [serialize, revive, hasKeys, typeIs, vGet, assocGet, MsgKind.typeTag,
      MsgKind.isToolLike, MsgKind.isChatLike, MsgKind.isFuncLike, reviveMsgOfKind]
  | chatChunk =>
    obtain rfl := hn.resolve_left (by decide)
    obtain rfl := ht.resolve_left (by decide)
    simp [serialize, revive, hasKeys, typeIs, vGet, assocGet, MsgKind.typeTag,
      MsgKind.isToolLike, MsgKind.isChatLike, MsgKind.isFuncLike, reviveMsgOfKind]
  | funcChunk =>
    obtain rfl := hr.resolve_left (by decide)
    obtain rfl := ht.resolve_left (by decide)
    simp [serialize, revive, hasKeys, typeIs, vGet, assocGet, MsgKind.typeTag,
      MsgKind.isToolLike, MsgKind.isChatLike, MsgKind.isFuncLike, reviveMsgOfKind]
  | toolChunk =>
    obtain rfl := hn.resolve_left (by decide)
    obtain rfl := hr.resolve_left (by decide)
    simp [serialize, revive, hasKeys, typeIs, vGet, assocGet, MsgKind.typeTag,
      MsgKind.isToolLike, MsgKind.isChatLike, MsgKind.isFuncLike, reviveMsgOfKind]

theorem msgSupported_roundtrip {m : Val} (hm : MsgSupported m) :
    revive (serialize m) = some m := by
  cases m with
  | vmsg k c n r t kw =>
    obtain ⟨rfl, hn, hr, ht⟩ := hm
    exact msg_roundtrip k c n r t hn hr ht
  | vundef => exact hm.elim
  | vnull => exact hm.elim
  | vbool b => exact hm.elim
  | vnum n => exact hm.elim
  | vstr s => exact hm.elim
  | vdate t => exact hm.elim
  | varr xs => exact hm.elim
  | vobj fs => exact hm.elim
  | vdoc pc md => exact hm.elim
  | vgenChunk t gi => exact hm.elim
  | vchatGenChunk m t gi => exact hm.elim
  | vstringPromptValue t => exact hm.elim
  | vchatPromptValue ms => exact hm.elim

/-- C6 counterexample: a human message carrying nonempty additional
kwargs does not survive the round trip with its additional kwargs — the
revival constructs the message from its content alone, so the kwargs
mapping comes back empty rather than equal to the original. -/
theorem c6_kwargs_not_preserved :
    revive (serialize (Val.vmsg MsgKind.human (Val.vstr "hi") Val.vundef Val.vundef
        Val.vundef (Val.vobj [("a", Val.vnum 1)]))) =
      some (Val.vmsg MsgKind.human (Val.vstr "hi") Val.vundef Val.vundef Val.vundef
        (Val.vobj [])) ∧
    (Val.vobj [] : Val) ≠ Val.vobj [("a", Val.vnum 1)] := by
  constructor
  · simp [serialize, revive, hasKeys, typeIs, vGet, assocGet, MsgKind.typeTag,
      MsgKind.isToolLike, MsgKind.isChatLike, MsgKind.isFuncLike, reviveMsgOfKind]
  · simp

/-- C6 amended: `revive (serialize x)` reproduces `x` exactly for every
supported typed domain value — messages and message chunks of each subtype
with empty additional kwargs (keeping content, role for chat kinds, name
for function kinds and tool_call_id for tool kinds; other extras must be
undefined, as revival drops them), documents, generation chunks and chat
generation chunks, and string / chat prompt values — whose plain-data
fields are plain wire data. -/
theorem c6_roundtrip_amended (x : Val) (h : Supported x) :
    revive (serialize x) = some x := by
  cases x with
  | vmsg k c n r t kw => exact msgSupported_roundtrip h
  | vdoc pc md =>
    obtain ⟨h1, h2⟩ := h
    simp [serialize, revive, hasKeys, vGet, assocGet, serialize_plain h1,
      serialize_plain h2]
  | vgenChunk t gi =>
    obtain ⟨h1, h2⟩ := h
    simp [serialize, revive, hasKeys, typeIs, vGet, assocGet, serialize_plain h1,
      serialize_plain h2]
  | vchatGenChunk m t gi =>
    obtain ⟨hm, h1, h2⟩ := h
    have hmr := msgSupported_roundtrip hm
    simp [serialize, revive, hasKeys, typeIs, vGet, assocGet, serialize_plain h1,
      serialize_plain h2, hmr]
  | vstringPromptValue t =>
    simp [serialize, revive, hasKeys, typeIs, vGet, assocGet, serialize_plain h]
  | vchatPromptValue ms =>
    have hlist : reviveList (serializeList ms) = some ms := by
      induction ms with
      | nil => simp [serializeList, reviveList]
      | cons m ms ih =>
        have hmr := msgSupported_roundtrip (h m (by simp))
        have ih2 := ih fun m2 hm2 => h m2 (by simp [hm2])
        simp only [serializeList, reviveList, hmr, ih2]
    simp [serialize, revive, hasKeys, typeIs, vGet, assocGet, hlist]
  | vundef => exact h.elim
  | vnull => exact h.elim
  | vbool b => exact h.elim
  | vnum n => exact h.elim
  | vstr s => exact h.elim
  | vdate t => exact h.elim
  | varr xs => exact h.elim
  | vobj fs => exact h.elim

/-- Witness for C6 amended: a tool message with a tool call id, and a
document with plain fields, both round trip exactly. -/
theorem c6_roundtrip_amended_witness :
    revive (serialize (Val.vmsg MsgKind.tool (Val.vstr "out") Val.vundef Val.vundef
        (Val.vstr "call1") (Val.vobj []))) =
      some (Val.vmsg MsgKind.tool (Val.vstr "out") Val.vundef Val.vundef
        (Val.vstr "call1") (Val.vobj [])) ∧
    revive (serialize (Val.vdoc (Val.vstr "body") (Val.vobj [("k", Val.vnum 3)]))) =
      some (Val.vdoc (Val.vstr "body") (Val.vobj [("k", Val.vnum 3)])) := by
  constructor
  · exact c6_roundtrip_amended
      (Val.vmsg MsgKind.tool (Val.vstr "out") Val.vundef Val.vundef
        (Val.vstr "call1") (Val.vobj []))
      ⟨rfl, Or.inr rfl, Or.inr rfl, Or.inl rfl⟩
  · exact c6_roundtrip_amended
      (Val.vdoc (Val.vstr "body") (Val.vobj [("k", Val.vnum 3)]))
      ⟨PlainData.str "body",
        PlainData.obj [("k", Val.vnum 3)]
          (fun kv hkv => by
            rcases List.mem_singleton.mp hkv with rfl
            exact PlainData.num 3)⟩

/-! ## C7: idempotence of revive on wire-form values -/

/-- Every discriminant string recognized by a constructing branch of
`revive`. -/
def reviveTags : List String :=
  ["HumanMessage", "human", "SystemMessage", "system", "ChatMessage", "chat",
   "FunctionMessage", "function", "ToolMessage", "tool", "AIMessage", "ai",
   "HumanMessageChunk", "SystemMessageChunk", "ChatMessageChunk",
   "FunctionMessageChunk", "ToolMessageChunk", "AIMessageChunk",
   "ChatGenerationChunk", "ChatGeneration", "GenerationChunk", "Generation",
   "AgentAction", "AgentFinish", "LLMResult"]

/-- A mapping on which the signature dispatch of `revive` constructs
nothing: it lacks the document signature, carries no recognized `type`
tag, and has neither a `messages` nor a `text` key. -/
def objInert (fs : List (String × Val)) : Bool :=
  !hasKeys fs ["page_content", "metadata"] &&
  (reviveTags.all fun tag => !typeIs fs tag) &&
  !hasKeys fs ["messages"] &&
  !hasKeys fs ["text"]

/-- On a mapping with no recognized tag and none of the tag-free
signatures, `revive` falls through to generic field-wise recursion. -/
theorem revive_obj_generic (fs : List (String × Val))
    (h1 : hasKeys fs ["page_content", "metadata"] = false)
    (h2 : ∀ tag ∈ reviveTags, typeIs fs tag = false)
    (h3 : hasKeys fs ["messages"] = false)
    (h4 : hasKeys fs ["text"] = false) :
    revive (Val.vobj fs) = (reviveFields fs).map Val.vobj := by
  have e : ∀ s, s ∈ reviveTags → typeIs fs s = false := h2
  simp only [revive, h1, h3, h4,
    e "HumanMessage" (by decide), e "human" (by decide),
    e "SystemMessage" (by decide), e "system" (by decide),
    e "ChatMessage" (by decide), e "chat" (by decide),
    e "FunctionMessage" (by decide), e "function" (by decide),
    e "ToolMessage" (by decide), e "tool" (by decide),
    e "AIMessage" (by decide), e "ai" (by decide),
    e "HumanMessageChunk" (by decide), e "SystemMessageChunk" (by decide),
    e "ChatMessageChunk" (by decide), e "FunctionMessageChunk" (by decide),
    e "ToolMessageChunk" (by decide), e "AIMessageChunk" (by decide),
    e "ChatGenerationChunk" (by decide), e "ChatGeneration" (by decide),
    e "GenerationChunk" (by decide), e "Generation" (by decide),
    e "AgentAction" (by decide), e "AgentFinish" (by decide),
    e "LLMResult" (by decide),
    Bool.and_false, Bool.false_and, Bool.or_self, Bool.and_self,
    Bool.false_or, Bool.or_false, if_false]
  simp

/-- Wire-form values on which `revive` acts trivially: plain data whose
every nested mapping is inert for the signature dispatch. -/
inductive Inert : Val → Prop
  | undef : Inert Val.vundef
  | null : Inert Val.vnull
  | bool (b : Bool) : Inert (Val.vbool b)
  | num (n : Int) : Inert (Val.vnum n)
  | str (s : String) : Inert (Val.vstr s)
  | date (t : Int) : Inert (Val.vdate t)
  | arr (xs : List Val) : (∀ x ∈ xs, Inert x) → Inert (Val.varr xs)
  | obj (fs : List (String × Val)) : objInert fs = true →
      (∀ kv ∈ fs, Inert kv.2) → Inert (Val.vobj fs)

theorem reviveList_congr : ∀ xs : List Val,
    (∀ x ∈ xs, revive x = some x) → reviveList xs = some xs := by
  intro xs
  induction xs with
  | nil => intro _; simp [reviveList]
  | cons x xs ih =>
    intro h
    have h1 := h x (by simp)
    have h2 := ih fun y hy => h y (by simp [hy])
    simp only [reviveList, h1, h2]

theorem reviveFields_congr : ∀ fs : List (String × Val),
    (∀ kv ∈ fs, revive kv.2 = some kv.2) → reviveFields fs = some fs := by
  intro fs
  induction fs with
  | nil => intro _; simp [reviveFields]
  | cons kv fs ih =>
    intro h
    obtain ⟨k, v⟩ := kv
    have h1 := h (k, v) (by simp)
    have h2 := ih fun p hp => h p (by simp [hp])
    simp only [reviveFields, h1, h2]

theorem revive_inert {v : Val} (h : Inert v) : revive v = some v := by
  induction h with
  | undef => simp [revive]
  | null => simp [revive]
  | bool b => simp [revive]
  | num n => simp [revive]
  | str s => simp [revive]
  | date t => simp [revive]
  | arr xs h ih =>
    have := reviveList_congr xs ih
    simp [revive, this]
  | obj fs hsig h ih =>
    have hf := reviveFields_congr fs ih
    have hcomp : (!hasKeys fs ["page_content", "metadata"] &&
        (reviveTags.all fun tag => !typeIs fs tag) &&
        !hasKeys fs ["messages"] && !hasKeys fs ["text"]) = true := hsig
    simp only [Bool.and_eq_true, Bool.not_eq_true', List.all_eq_true,
      Bool.not_eq_true] at hcomp
    obtain ⟨⟨⟨h1, h2⟩, h3⟩, h4⟩ := hcomp
    rw [revive_obj_generic fs h1 (fun tag ht => by simpa using h2 tag ht) h3 h4, hf]
    rfl

/-- C7 counterexample: the wire form of a plain `Generation` record
revives to a plain mapping with a camel-cased `generationInfo` key, and
reviving that once more constructs a string prompt value (its key set is a
superset of the `text` signature) — so `revive` composed with itself
differs from one application on a wire-form value. -/
theorem c7_not_idempotent :
    (revive (Val.vobj [("text", Val.vstr "a"), ("generation_info", Val.vnull),
        ("type", Val.vstr "Generation")])).bind revive ≠
      revive (Val.vobj [("text", Val.vstr "a"), ("generation_info", Val.vnull),
        ("type", Val.vstr "Generation")]) := by
  have h1 : revive (Val.vobj [("text", Val.vstr "a"), ("generation_info", Val.vnull),
      ("type", Val.vstr "Generation")]) =
      some (Val.vobj [("text", Val.vstr "a"), ("generationInfo", Val.vnull)]) := by
    simp [revive, hasKeys, typeIs, vGet, assocGet]
  have h2 : revive (Val.vobj [("text", Val.vstr "a"), ("generationInfo", Val.vnull)]) =
      some (Val.vstringPromptValue (Val.vstr "a")) := by
    simp [revive, hasKeys, typeIs, vGet, assocGet]
  rw [h1, Option.some_bind, h2]
  simp

/-- C7 amended: `revive` is the identity — and hence idempotent — on
wire-form values none of whose nested mappings triggers a constructing
branch of the signature dispatch (no document signature, no recognized
`type` tag, no `messages` or `text` key); in particular `Date`-like
scalars and `null` are returned unchanged. Wire-form values that do match
a signature are not fixed points, as the counterexample shows. -/
theorem c7_idempotent_amended (v : Val) (h : Inert v) :
    revive v = some v ∧ (revive v).bind revive = revive v := by
  have h1 := revive_inert h
  refine ⟨h1, ?_⟩
  rw [h1, Option.some_bind, h1]

/-- Witness for C7 amended: a singleton mapping under an unrecognized key
is a fixed point of revival, twice over. -/
theorem c7_idempotent_amended_witness :
    revive (Val.vobj [("payload", Val.vnum 1)]) =
        some (Val.vobj [("payload", Val.vnum 1)]) ∧
      (revive (Val.vobj [("payload", Val.vnum 1)])).bind revive =
        revive (Val.vobj [("payload", Val.vnum 1)]) :=
  c7_idempotent_amended (Val.vobj [("payload", Val.vnum 1)])
    (Inert.obj [("payload", Val.vnum 1)] (by decide)
      (fun kv hkv => by
        rcases List.mem_singleton.mp hkv with rfl
        exact Inert.num 1))

/-! ## C10: totality of revive -/

theorem assocGet_mem {α : Type} {fs : List (String × α)} {k : String} {v : α}
    (h : assocGet fs k = some v) : (k, v) ∈ fs := by
  induction fs with
  | nil => simp [assocGet] at h
  | cons hd tl ih =>
    obtain ⟨k0, v0⟩ := hd
    simp only [assocGet] at h
    by_cases hk : k0 = k
    · rw [if_pos hk] at h
      obtain rfl := Option.some.inj h
      subst hk
      simp
    · rw [if_neg hk] at h
      simp [ih h]

/-- JSON values on which `revive` cannot raise: every nested mapping that
carries a `messages` key holds an array there (so the `.map` call of the
chat-prompt-value branch cannot fail). -/
inductive NoBadMsgs : Val → Prop
  | undef : NoBadMsgs Val.vundef
  | null : NoBadMsgs Val.vnull
  | bool (b : Bool) : NoBadMsgs (Val.vbool b)
  | num (n : Int) : NoBadMsgs (Val.vnum n)
  | str (s : String) : NoBadMsgs (Val.vstr s)
  | date (t : Int) : NoBadMsgs (Val.vdate t)
  | arr (xs : List Val) : (∀ x ∈ xs, NoBadMsgs x) → NoBadMsgs (Val.varr xs)
  | obj (fs : List (String × Val)) : (∀ kv ∈ fs, NoBadMsgs kv.2) →
      (hasKeys fs ["messages"] = true → ∃ ms, vGet fs "messages" = Val.varr ms) →
      NoBadMsgs (Val.vobj fs)

theorem reviveList_total : ∀ xs : List Val,
    (∀ x ∈ xs, ∃ w, revive x = some w) → ∃ ys, reviveList xs = some ys := by
  intro xs
  induction xs with
  | nil => intro _; exact ⟨[], by simp [reviveList]⟩
  | cons x xs ih =>
    intro h
    obtain ⟨w, hw⟩ := h x (by simp)
    obtain ⟨ys, hys⟩ := ih fun y hy => h y (by simp [hy])
    exact ⟨w :: ys, by simp only [reviveList, hw, hys]⟩

theorem reviveFields_total : ∀ fs : List (String × Val),
    (∀ kv ∈ fs, ∃ w, revive kv.2 = some w) → ∃ gs, reviveFields fs = some gs := by
  intro fs
  induction fs with
  | nil => intro _; exact ⟨[], by simp [reviveFields]⟩
  | cons kv fs ih =>
    intro h
    obtain ⟨k, v⟩ := kv
    obtain ⟨w, hw⟩ := h (k, v) (by simp)
    obtain ⟨gs, hgs⟩ := ih fun p hp => h p (by simp [hp])
    exact ⟨(k, w) :: gs, by simp only [reviveFields, hw, hgs]⟩

theorem revive_vGet_total (fs : List (String × Val)) (k : String)
    (ih : ∀ kv ∈ fs, ∃ w, revive kv.2 = some w) :
    ∃ w, revive (vGet fs k) = some w := by
  rw [vGet]
  cases hag : assocGet fs k with
  | none => exact ⟨Val.vundef, by simp [revive]⟩
  | some v => exact ih (k, v) (assocGet_mem hag)

/-- The per-field description of generic field-wise revival. -/
theorem reviveFields_spec : ∀ (fs gs : List (String × Val)),
    reviveFields fs = some gs →
      gs.map Prod.fst = fs.map Prod.fst ∧
      ∀ p ∈ List.zip fs gs, revive p.1.2 = some p.2.2 := by
  intro fs
  induction fs with
  | nil =>
    intro gs h
    simp only [reviveFields] at h
    obtain rfl := Option.some.inj h
    simp
  | cons kv fs ih =>
    intro gs h
    obtain ⟨k, v⟩ := kv
    simp only [reviveFields] at h
    cases hv : revive v with
    | none => simp [hv] at h
    | some w =>
      cases hfs : reviveFields fs with
      | none => simp [hv, hfs] at h
      | some gs2 =>
        simp only [hv, hfs] at h
        obtain rfl := Option.some.inj h
        obtain ⟨ih1, ih2⟩ := ih gs2 hfs
        refine ⟨by simp [ih1], ?_⟩
        intro p hp
        simp only [List.zip_cons_cons, List.mem_cons] at hp
        rcases hp with rfl | hp
        · exact hv
        · exact ih2 p hp

theorem revive_total_noBadMsgs : ∀ v : Val, NoBadMsgs v → ∃ w, revive v = some w := by
  intro v h
  induction h with
  | undef => exact ⟨Val.vundef, by simp [revive]⟩
  | null => exact ⟨Val.vnull, by simp [revive]⟩
  | bool b => exact ⟨Val.vbool b, by simp [revive]⟩
  | num n => exact ⟨Val.vnum n, by simp [revive]⟩
  | str s => exact ⟨Val.vstr s, by simp [revive]⟩
  | date t => exact ⟨Val.vdate t, by simp [revive]⟩
  | arr xs hxs ih =>
    obtain ⟨ys, hys⟩ := reviveList_total xs ih
    exact ⟨Val.varr ys, by simp [revive, hys]⟩
  | obj fs hfs hm ih =>
    rw [revive.eq_def]
    split
    all_goals try (rename_i heq; exact Val.noConfusion heq)
    rename_i fs2 heq
    injection heq with h2
    subst h2
    by_cases hc1 : hasKeys fs ["page_content", "metadata"] = true
    · rw [if_pos hc1]; exact ⟨_, rfl⟩
    rw [if_neg hc1]
    by_cases hc2 : (hasKeys fs ["content", "type", "additional_kwargs"] && (typeIs fs "HumanMessage" || typeIs fs "human")) = true
    · rw [if_pos hc2]; exact ⟨_, rfl⟩
    rw [if_neg hc2]
    by_cases hc3 : (hasKeys fs ["content", "type", "additional_kwargs"] && (typeIs fs "SystemMessage" || typeIs fs "system")) = true
    · rw [if_pos hc3]; exact ⟨_, rfl⟩
    rw [if_neg hc3]
    by_cases hc4 : (hasKeys fs ["content", "type", "additional_kwargs"] && (typeIs fs "ChatMessage" || typeIs fs "chat")) = true
    · rw [if_pos hc4]; exact ⟨_, rfl⟩
    rw [if_neg hc4]
    by_cases hc5 : (hasKeys fs ["content", "type", "additional_kwargs"] && (typeIs fs "FunctionMessage" || typeIs fs "function")) = true
    · rw [if_pos hc5]; exact ⟨_, rfl⟩
    rw [if_neg hc5]
    by_cases hc6 : (hasKeys fs ["content", "type", "additional_kwargs"] && (typeIs fs "ToolMessage" || typeIs fs "tool")) = true
    · rw [if_pos hc6]; exact ⟨_, rfl⟩
    rw [if_neg hc6]
    by_cases hc7 : (hasKeys fs ["content", "type", "additional_kwargs"] && (typeIs fs "AIMessage" || typeIs fs "ai")) = true
    · rw [if_pos hc7]; exact ⟨_, rfl⟩
    rw [if_neg hc7]
    by_cases hc8 : (hasKeys fs ["content", "type", "additional_kwargs"] && typeIs fs "HumanMessageChunk") = true
    · rw [if_pos hc8]; exact ⟨_, rfl⟩
    rw [if_neg hc8]
    by_cases hc9 : (hasKeys fs ["content", "type", "additional_kwargs"] && typeIs fs "SystemMessageChunk") = true
    · rw [if_pos hc9]; exact ⟨_, rfl⟩
    rw [if_neg hc9]
    by_cases hc10 : (hasKeys fs ["content", "type", "additional_kwargs"] && typeIs fs "ChatMessageChunk") = true
    · rw [if_pos hc10]; exact ⟨_, rfl⟩
    rw [if_neg hc10]
    by_cases hc11 : (hasKeys fs ["content", "type", "additional_kwargs"] && typeIs fs "FunctionMessageChunk") = true
    · rw [if_pos hc11]; exact ⟨_, rfl⟩
    rw [if_neg hc11]
    by_cases hc12 : (hasKeys fs ["content", "type", "additional_kwargs"] && typeIs fs "ToolMessageChunk") = true
    · rw [if_pos hc12]; exact ⟨_, rfl⟩
    rw [if_neg hc12]
    by_cases hc13 : (hasKeys fs ["content", "type", "additional_kwargs"] && typeIs fs "AIMessageChunk") = true
    · rw [if_pos hc13]; exact ⟨_, rfl⟩
    rw [if_neg hc13]
    by_cases hc14 : (hasKeys fs ["text", "generation_info", "type"] && typeIs fs "ChatGenerationChunk") = true
    · rw [if_pos hc14]
      obtain ⟨w, hw⟩ := revive_vGet_total fs "message" ih
      rw [hw]; exact ⟨_, rfl⟩
    rw [if_neg hc14]
    by_cases hc15 : (hasKeys fs ["text", "generation_info", "type"] && typeIs fs "ChatGeneration") = true
    · rw [if_pos hc15]
      obtain ⟨w, hw⟩ := revive_vGet_total fs "message" ih
      rw [hw]; exact ⟨_, rfl⟩
    rw [if_neg hc15]
    by_cases hc16 : (hasKeys fs ["text", "generation_info", "type"] && typeIs fs "GenerationChunk") = true
    · rw [if_pos hc16]; exact ⟨_, rfl⟩
    rw [if_neg hc16]
    by_cases hc17 : (hasKeys fs ["text", "generation_info", "type"] && typeIs fs "Generation") = true
    · rw [if_pos hc17]; exact ⟨_, rfl⟩
    rw [if_neg hc17]
    by_cases hc18 : (hasKeys fs ["tool", "tool_input", "log", "type"] && typeIs fs "AgentAction") = true
    · rw [if_pos hc18]; exact ⟨_, rfl⟩
    rw [if_neg hc18]
    by_cases hc19 : (hasKeys fs ["return_values", "log", "type"] && typeIs fs "AgentFinish") = true
    · rw [if_pos hc19]; exact ⟨_, rfl⟩
    rw [if_neg hc19]
    by_cases hc20 : (hasKeys fs ["generations", "run", "type"] && typeIs fs "LLMResult") = true
    · rw [if_pos hc20]
      obtain ⟨w, hw⟩ := revive_vGet_total fs "generations" ih
      rw [hw]; exact ⟨_, rfl⟩
    rw [if_neg hc20]
    by_cases hc21 : hasKeys fs ["messages"] = true
    · rw [if_pos hc21]
      obtain ⟨ms, hms⟩ := hm hc21
      have hmem : ("messages", Val.varr ms) ∈ fs := by
        apply assocGet_mem
        rw [vGet] at hms
        cases hag : assocGet fs "messages" with
        | none => rw [hag] at hms; simp at hms
        | some v0 => rw [hag] at hms; simp at hms; rw [hms]
      obtain ⟨w, hw⟩ := ih ("messages", Val.varr ms) hmem
      have hrl : ∃ ys, reviveList ms = some ys := by
        rw [show revive (Val.varr ms) = (reviveList ms).map Val.varr from by
          simp [revive]] at hw
        cases hys : reviveList ms with
        | none => rw [hys] at hw; simp at hw
        | some ys => exact ⟨ys, rfl⟩
      obtain ⟨ys, hys⟩ := hrl
      rw [hms]
      split
      all_goals try (rename_i hno; exact absurd rfl (hno ms))
      rename_i ms0 heq3
      injection heq3 with h4
      subst h4
      rw [hys]
      exact ⟨_, rfl⟩
    rw [if_neg hc21]
    by_cases hc22 : hasKeys fs ["text"] = true
    · rw [if_pos hc22]; exact ⟨_, rfl⟩
    rw [if_neg hc22]
    obtain ⟨gs, hgs⟩ := reviveFields_total fs ih
    rw [hgs]
    exact ⟨_, rfl⟩

/-- C10: the claim that revive never raises on any JSON-decodable input is
refuted: a mapping whose sole key is messages, bound to a non-array value,
makes the source evaluate obj.messages.map, which throws; the embedding
returns none on that input. -/
theorem c10_revive_raises :
    revive (Val.vobj [("messages", Val.vnum 5)]) = none := by
  simp [revive, hasKeys, vGet, assocGet, typeIs]

/-- C10 (amended): revive is total on every value whose mappings carry a
messages key only with an array value; and a mapping carrying the content,
type and additional kwargs keys whose type field is none of the recognized
discriminant tags, and which matches no other signature, falls through to
generic field-wise revival producing a plain mapping. -/
theorem c10_totality_amended :
    (∀ v, NoBadMsgs v → ∃ w, revive v = some w) ∧
    (∀ fs : List (String × Val),
      hasKeys fs ["content", "type", "additional_kwargs"] = true →
      hasKeys fs ["page_content", "metadata"] = false →
      (∀ t ∈ reviveTags, typeIs fs t = false) →
      hasKeys fs ["messages"] = false →
      hasKeys fs ["text"] = false →
      revive (Val.vobj fs) = (reviveFields fs).map Val.vobj) := by
  refine ⟨revive_total_noBadMsgs, ?_⟩
  intro fs hck hdoc htags hmsgs htext
  have t01 := htags "HumanMessage" (by decide)
  have t02 := htags "human" (by decide)
  have t03 := htags "SystemMessage" (by decide)
  have t04 := htags "system" (by decide)
  have t05 := htags "ChatMessage" (by decide)
  have t06 := htags "chat" (by decide)
  have t07 := htags "FunctionMessage" (by decide)
  have t08 := htags "function" (by decide)
  have t09 := htags "ToolMessage" (by decide)
  have t10 := htags "tool" (by decide)
  have t11 := htags "AIMessage" (by decide)
  have t12 := htags "ai" (by decide)
  have t13 := htags "HumanMessageChunk" (by decide)
  have t14 := htags "SystemMessageChunk" (by decide)
  have t15 := htags "ChatMessageChunk" (by decide)
  have t16 := htags "FunctionMessageChunk" (by decide)
  have t17 := htags "ToolMessageChunk" (by decide)
  have t18 := htags "AIMessageChunk" (by decide)
  have t19 := htags "ChatGenerationChunk" (by decide)
  have t20 := htags "ChatGeneration" (by decide)
  have t21 := htags "GenerationChunk" (by decide)
  have t22 := htags "Generation" (by decide)
  have t23 := htags "AgentAction" (by decide)
  have t24 := htags "AgentFinish" (by decide)
  have t25 := htags "LLMResult" (by decide)
  rw [revive.eq_def]
  split
  all_goals try (rename_i heq; exact Val.noConfusion heq)
  rename_i fs2 heq
  injection heq with h2
  subst h2
  rw [if_neg (by simp [hdoc])]
  rw [if_neg (by simp [t01, t02])]
  rw [if_neg (by simp [t03, t04])]
  rw [if_neg (by simp [t05, t06])]
  rw [if_neg (by simp [t07, t08])]
  rw [if_neg (by simp [t09, t10])]
  rw [if_neg (by simp [t11, t12])]
  rw [if_neg (by simp [t13])]
  rw [if_neg (by simp [t14])]
  rw [if_neg (by simp [t15])]
  rw [if_neg (by simp [t16])]
  rw [if_neg (by simp [t17])]
  rw [if_neg (by simp [t18])]
  rw [if_neg (by simp [t19])]
  rw [if_neg (by simp [t20])]
  rw [if_neg (by simp [t21])]
  rw [if_neg (by simp [t22])]
  rw [if_neg (by simp [t23])]
  rw [if_neg (by simp [t24])]
  rw [if_neg (by simp [t25])]
  rw [if_neg (by simp [hmsgs])]
  rw [if_neg (by simp [htext])]

theorem c10_totality_amended_witness :
    (∃ w, revive (Val.vobj [("messages", Val.varr [Val.vstr "m"])]) = some w) ∧
    revive (Val.vobj [("content", Val.vstr "c"), ("type", Val.vstr "mystery"),
        ("additional_kwargs", Val.vnull)])
      = (reviveFields [("content", Val.vstr "c"), ("type", Val.vstr "mystery"),
        ("additional_kwargs", Val.vnull)]).map Val.vobj := by
  constructor
  · apply c10_totality_amended.1
    apply NoBadMsgs.obj
    · intro kv hkv
      simp only [List.mem_singleton] at hkv
      subst hkv
      refine NoBadMsgs.arr _ ?_
      intro x hx
      simp only [List.mem_singleton] at hx
      subst hx
      exact NoBadMsgs.str "m"
    · intro h3
      exact ⟨[Val.vstr "m"], rfl⟩
  · exact c10_totality_amended.2 _ (by decide) (by decide) (by decide)
      (by decide) (by decide)

/-! ## C8: remote batch refuses the per-item exception mode -/

/-- Batch options of a remote call; absent JavaScript properties are `none`. -/
structure RunnableBatchOptions where
  maxConcurrency : Option Int
  returnExceptions : Option Bool

/-- Truthiness of the optional chain reading `returnExceptions` from a possibly
absent batch options object: undefined and false are falsy. -/
def returnExceptionsTruthy (batchOptions : Option RunnableBatchOptions) : Bool :=
  ((batchOptions.map RunnableBatchOptions.returnExceptions).getD none).getD false

/-- The `removeCallbacks` helper: copy the mapping and delete its callbacks
property. -/
def removeCallbacks (options : List (String × Val)) : List (String × Val) :=
  assocRemove options "callbacks"

/-- Object spread `\x7b ...a, ...b \x7d`: the fields of `a` overridden in place by
those of `b`. -/
def spreadMerge (a b : List (String × Val)) : List (String × Val) :=
  b.foldl (fun acc kv => assocSet acc kv.1 kv.2) a

/-- The spread fields contributed by a possibly absent batch options object. -/
def batchOptionsFields (b : Option RunnableBatchOptions) : List (String × Val) :=
  match b with
  | none => []
  | some bo =>
    (match bo.maxConcurrency with
     | none => []
     | some n => [("maxConcurrency", Val.vnum n)]) ++
    (match bo.returnExceptions with
     | none => []
     | some x => [("returnExceptions", Val.vbool x)])

/-- An HTTP request the client issues: the concatenated target URL and the
serialized request body, as built by the private `post` helper. -/
structure HttpRequest where
  url : String
  body : Val

/-- The `post` helper: fetch against the base URL extended with the path,
sending the serialized body. -/
def post (url path : String) (body : Val) : HttpRequest :=
  { url := url ++ path, body := serialize body }

/-- `RemoteRunnable._batch`, embedded as the request it issues or the error it
throws. The base-class helper that splits one call options mapping into a
runnable config and the remaining kwargs is defined outside the embedded
sources, so it is taken as a parameter `sep`; the result holds for every such
helper. The guard on the per-item exception mode comes first, before any
option processing and before the request is built. -/
def _batch (url : String) (sep : Val → List (String × Val) × Val)
    (inputs : List Val) (options : Option (List Val))
    (batchOptions : Option RunnableBatchOptions) : Except String HttpRequest :=
  if returnExceptionsTruthy batchOptions then
    Except.error "returnExceptions is not supported for remote clients"
  else
    Except.ok (post url "/batch" (Val.vobj
      [("inputs", Val.varr inputs),
       ("config", Val.varr
         ((((options.map fun os => (os.map sep).map Prod.fst).getD []).map
             removeCallbacks).map
           fun config => Val.vobj
             (spreadMerge config (batchOptionsFields batchOptions)))),
       ("kwargs",
         match options with
         | none => Val.vundef
         | some os => Val.varr ((os.map sep).map Prod.snd))]))

/-- `RemoteRunnable.batch`: the same guard precedes delegation to the
base-class batching helper, which is outside the embedded sources and is taken
as the parameter `bwc` applied to the remaining arguments. -/
def batch
    (bwc : List Val → Option (List Val) → Option RunnableBatchOptions →
      Except String HttpRequest)
    (inputs : List Val) (options : Option (List Val))
    (batchOptions : Option RunnableBatchOptions) : Except String HttpRequest :=
  if returnExceptionsTruthy batchOptions then
    Except.error "returnExceptions is not supported for remote clients"
  else
    bwc inputs options batchOptions

/-- C8: for every inputs list, options and batch options with the per-item
exception field set to true, both the public batch entry point and its helper
throw the unsupported-mode error instead of producing any HTTP request, for
every base-class separation or batching helper - the mode is never silently
degraded to a normal batch call. -/
theorem c8_batch_rejects_return_exceptions
    (url : String) (sep : Val → List (String × Val) × Val)
    (bwc : List Val → Option (List Val) → Option RunnableBatchOptions →
      Except String HttpRequest)
    (inputs : List Val) (options : Option (List Val))
    (bo : RunnableBatchOptions) (h : bo.returnExceptions = some true) :
    _batch url sep inputs options (some bo)
        = Except.error "returnExceptions is not supported for remote clients" ∧
      batch bwc inputs options (some bo)
        = Except.error "returnExceptions is not supported for remote clients" := by
  have ht : returnExceptionsTruthy (some bo) = true := by
    simp [returnExceptionsTruthy, h]
  constructor
  · rw [_batch.eq_def, if_pos ht]
  · rw [batch, if_pos ht]

theorem c8_batch_rejects_return_exceptions_witness :
    _batch "http://localhost:8000" (fun v => ([], v)) [Val.vnum 1] none
        (some ⟨none, some true⟩)
        = Except.error "returnExceptions is not supported for remote clients" ∧
      batch (fun i _o _b => Except.ok (post "u" "/batch" (Val.varr i)))
        [Val.vnum 1] none (some ⟨none, some true⟩)
        = Except.error "returnExceptions is not supported for remote clients" :=
  c8_batch_rejects_return_exceptions "http://localhost:8000" (fun v => ([], v))
    (fun i _o _b => Except.ok (post "u" "/batch" (Val.varr i)))
    [Val.vnum 1] none ⟨none, some true⟩ rfl
